import Mathlib

/-!
# Verification of the log-export consolidation pipeline

Shallow embedding of `create_timestamped_tables.py`, `update_schema.py` and
`dataflow/log-export/update_schema.py`, together with proofs about the
schema-merge algorithm, the completeness ("dip") detector, the consistency
waiter, the window planner, the fragment-join query and the orchestrator.
-/

set_option maxHeartbeats 1000000

namespace LogExport

/-! ## Schema model (`update_schema.py`)

A bigquery schema is a JSON list of field dicts.  A field dict has entries
`name`, `type`, optionally `mode`, and — on RECORD-typed fields — `fields`,
a list of subfield dicts.  A dict carrying no `fields` key is modelled with
`fields = []`; `WFSchema` below records the shape of the dicts that actually
occur (the `fields` key present exactly on RECORD fields, so the scripts
never hit a missing-key error). -/

inductive Field : Type where
  | mk (name type : String) (mode : Option String) (fields : List Field)
deriving Repr

def Field.name : Field → String
  | .mk n _ _ _ => n

def Field.type : Field → String
  | .mk _ t _ _ => t

def Field.mode : Field → Option String
  | .mk _ _ m _ => m

def Field.fields : Field → List Field
  | .mk _ _ _ fs => fs

/-- The names of the top-level fields of a schema, in order. -/
def names (s : List Field) : List String := s.map Field.name

/-- Index (counted from the front) of the *last* element of `l` whose name is
`nm`; this is the element the Python dict comprehension
`{field['name']: field for field in streaming_schema}` associates to `nm`
(later entries overwrite earlier ones). -/
def lastIdxNamed (nm : String) : List Field → Option Nat
  | [] => none
  | f :: rest =>
    match lastIdxNamed nm rest with
    | some i => some (i + 1)
    | none => if f.name = nm then some 0 else none

mutual

/-- The `for logs_field in logs_schema` loop of `_merge_schemas` in
`update_schema.py`.  `orig` is the (fixed) key set of `streaming_map`;
`cur` is the original streaming prefix of the working list — the dicts of
the caller's list, with the in-place `'fields'` reassignments applied —
and `app` the suffix of fields appended to the shallow copy. -/
def mergeAux : List Field → List String → List Field → List Field →
    List Field × List Field
  | [], _, cur, app => (cur, app)
  | lf :: rest, orig, cur, app =>
    let p := mergeStep lf orig cur app
    mergeAux rest orig p.1 p.2

/-- One iteration of the loop body, for field `logs_field`.  The dict
`streaming_map` points at for a given name is the *last* list element with
that name (its position is stable: mutation changes no names), and the
reassignment `streaming_map[name]['fields'] = _merge_schemas(...)` is
modelled by `List.set` at that position.  The `none` branch of the index
lookup is unreachable when `orig = names cur`, which the callers
guarantee. -/
def mergeStep : Field → List String → List Field → List Field →
    List Field × List Field
  | Field.mk nm tp md sub, orig, cur, app =>
    if nm ∈ orig then
      if tp = "RECORD" then
        (match lastIdxNamed nm cur with
         | none => cur
         | some i =>
           let sf := cur.getD i (Field.mk "" "" none [])
           let q := mergeAux sub (names sf.fields) sf.fields []
           cur.set i (Field.mk sf.name sf.type sf.mode (q.1 ++ q.2)),
         app)
      else (cur, app)
    else (cur, app ++ [Field.mk nm tp md sub])

end

/-- Model of `_merge_schemas(logs_schema, streaming_schema)` from
`update_schema.py`: shallow-copy `streaming_schema`, walk `logs_schema`
appending unknown fields and recursively merging the subfields of shared
RECORD fields in place.  The returned list is the (mutated) original
streaming dicts followed by the appended fields. -/
def mergeSchemas (logs streaming : List Field) : List Field :=
  let p := mergeAux logs (names streaming) streaming []
  p.1 ++ p.2

/-! ### The dataflow revision (`src/dataflow/log-export/update_schema.py`)

The dataflow copy of `_merge_schemas` has its parameters the other way
around — `_merge_schemas(streaming_schema, schema_that_java_will_write)`
copies and mutates its *first* argument and iterates over its *second* —
while its recursive call `_merge_schemas(logs_field['fields'],
streaming_field['fields'])` keeps the literal argument order of the
original file.  Consequently the roles swap at every nesting level: the
subfield list that is copied, kept in order and mutated is the one of the
*incoming* field, and the kept field's old subfields are the ones walked
and appended.  Because of that swap the recursion is not structural in
either argument, so the model takes a fuel parameter; `none` means the
fuel ran out (the Python function always terminates on finite acyclic
schemas, so every claim below is stated about runs that return `some`). -/

/-- The `for logs_field in schema_that_java_will_write` loop of the dataflow
`_merge_schemas`.  `cur` holds the dicts of the copied first argument with
mutations applied, `app` the appended suffix; `orig` is the fixed key set of
`streaming_map`. -/
def mergeDfAux : Nat → List String → List Field → List Field → List Field →
    Option (List Field × List Field)
  | 0, _, _, _, _ => none
  | _ + 1, _, [], cur, app => some (cur, app)
  | fuel + 1, orig, Field.mk nm tp md sub :: rest, cur, app =>
    if nm ∈ orig then
      if tp = "RECORD" then
        match lastIdxNamed nm cur with
        | none => mergeDfAux fuel orig rest cur app
        | some i =>
          let sf := cur.getD i (Field.mk "" "" none [])
          -- the recursive call `_merge_schemas(logs_field['fields'],
          -- streaming_field['fields'])`: the incoming subfields `sub` are the
          -- copied-and-mutated side, the kept dict's old subfields are walked
          match mergeDfAux fuel (names sub) sf.fields sub [] with
          | none => none
          | some q =>
            mergeDfAux fuel orig rest
              (cur.set i (Field.mk sf.name sf.type sf.mode (q.1 ++ q.2))) app
      else
        mergeDfAux fuel orig rest cur app
    else
      mergeDfAux fuel orig rest cur (app ++ [Field.mk nm tp md sub])

/-- Model of `_merge_schemas(streaming_schema, schema_that_java_will_write)`
from `src/dataflow/log-export/update_schema.py` (return value). -/
def mergeSchemasDf (fuel : Nat) (streaming java : List Field) :
    Option (List Field) :=
  (mergeDfAux fuel (names streaming) java streaming []).map
    fun p => p.1 ++ p.2

/-- The value of the *caller's* first-argument list after the dataflow
`_merge_schemas` returns: the shallow copy shares the field dicts with the
caller's list, so the in-place `'fields'` reassignments (the `cur`
component) are visible through it, while the appended suffix is not. -/
def mergeSchemasDfCaller (fuel : Nat) (streaming java : List Field) :
    Option (List Field) :=
  (mergeDfAux fuel (names streaming) java streaming []).map
    fun p => p.1

example :
    mergeSchemasDf 9
      [Field.mk "a" "RECORD" none [Field.mk "x" "STRING" none []]]
      [Field.mk "a" "RECORD" none
        [Field.mk "x" "STRING" none [], Field.mk "y" "STRING" none []]] =
    some [Field.mk "a" "RECORD" none
      [Field.mk "x" "STRING" none [], Field.mk "y" "STRING" none []]] := rfl

mutual

/-- Model of `_delete_mode(schema)` (identical in both `update_schema.py`
revisions): in place, drop every `mode` entry that is not exactly
`"REPEATED"`, and recurse into the subfields of RECORD fields.  The value
of the list after the call. -/
def deleteMode : List Field → List Field
  | [] => []
  | f :: rest => deleteModeField f :: deleteMode rest

/-- `_delete_mode`'s effect on one field dict. -/
def deleteModeField : Field → Field
  | Field.mk n t m fs =>
    Field.mk n t (if m = some "REPEATED" then m else none)
      (if t = "RECORD" then deleteMode fs else fs)

end

mutual

/-- The names of the top-level fields are unique, at every level of the
tree — the shape in which bigquery actually delivers schemas (column names
are unique within a record). -/
def nodupNames : List Field → Bool
  | [] => true
  | f :: rest =>
    !((names rest).contains f.name) && nodupNamesField f && nodupNames rest

/-- `nodupNames` on a field's subfield tree. -/
def nodupNamesField : Field → Bool
  | Field.mk _ _ _ fs => nodupNames fs

end

mutual

/-- Every RECORD field carries a (possibly deeper) subfield tree and every
non-RECORD field carries none: this is the dict shape `bq show` produces
(the `fields` key is present exactly on RECORD columns), under which the
Python code never reads a missing key. -/
def recordShape : List Field → Bool
  | [] => true
  | f :: rest => recordShapeField f && recordShape rest

/-- `recordShape` on one field dict. -/
def recordShapeField : Field → Bool
  | Field.mk _ t _ fs =>
    (decide (t = "RECORD") || fs.isEmpty) && recordShape fs

end

mutual

/-- Structural equality of field dicts — Python's `==` on the parsed JSON. -/
def Field.beq : Field → Field → Bool
  | .mk n t m fs, .mk n' t' m' fs' =>
    n == n' && t == t' && m == m' && Field.beqList fs fs'

/-- Structural equality of schemas — Python's `==` on lists of dicts. -/
def Field.beqList : List Field → List Field → Bool
  | [], [] => true
  | f :: fs, g :: gs => Field.beq f g && Field.beqList fs gs
  | _, _ => false

end

mutual

theorem Field.beq_iff : ∀ a b : Field, Field.beq a b = true ↔ a = b
  | .mk n t m fs, .mk n' t' m' fs' => by
    rw [Field.beq, Field.mk.injEq]
    simp [Field.beqList_iff fs fs', and_assoc]

theorem Field.beqList_iff :
    ∀ l l' : List Field, Field.beqList l l' = true ↔ l = l'
  | [], [] => by simp [Field.beqList]
  | [], _ :: _ => by simp [Field.beqList]
  | _ :: _, [] => by simp [Field.beqList]
  | f :: fs, g :: gs => by
    rw [Field.beqList, List.cons.injEq]
    simp [Field.beq_iff f g, Field.beqList_iff fs gs]

end

instance : DecidableEq Field := fun a b =>
  decidable_of_iff _ (Field.beq_iff a b)

/-- What `merge_and_update_schema(project, table, merge_with, dry_run)` from
`src/dataflow/log-export/update_schema.py` decides and computes:
`orig` is what `schema(project, table)` returned (`[]` when the table does
not exist), `mergeWith` the incoming schema.  The result carries
(whether `_update_schema` is invoked, the value of `new_schema`, the value
the caller's `orig_schema` list has after the call).  The dicts of
`new_schema`'s first `orig.length` entries *are* the dicts of `orig`, so
the in-place `_delete_mode(new_schema)` is also visible through
`orig_schema`, and the `new_schema == orig_schema` comparison at line 140
compares exactly the two values produced here. -/
def mergeAndUpdateSchema (fuel : Nat) (orig mergeWith : List Field)
    (dryRun : Bool) : Option (Bool × List Field × List Field) :=
  match mergeDfAux fuel (names orig) mergeWith orig [] with
  | none => none
  | some p =>
    let newSchema := deleteMode (p.1 ++ p.2)
    let origAfter := deleteMode p.1
    let updateCalled :=
      if orig.isEmpty then false
      else if Field.beqList newSchema origAfter then false
      else if dryRun then false
      else true
    some (updateCalled, newSchema, origAfter)

/-! ## The completeness ("dip") detector
(`_hourly_logs_seem_complete`, `create_timestamped_tables.py` 289–367)

The function buckets the hourly table's rows into 5-minute intervals and
scans the ordered bucket counts.  We model the scan over the list of
counts (one integer per bucket, identified by its index).  The Python
arithmetic is IEEE double; we use exact rationals, which agree with the
float comparisons for all realistic count magnitudes (the compared
quantities are ratios of integers well below 2^50). -/

/-- The loop `for i in xrange(1, len(results))`.  The running state is
`none` while `dip_start is None`, and `some (dipStart, preDip, dipDiff)`
once a dip has started (`dip_start` index, `pre_dip_amount`,
`dip_difference`).  The result is the final state plus the `dip_end`
index if the `break` was reached. -/
def dipScan : List Int → Int → Nat → Option (Nat × Int × ℚ) →
    Option (Nat × Int × ℚ) × Option Nat
  | [], _, _, st => (st, none)
  | newCount :: restCounts, oldCount, i, st =>
    let difference : ℚ := (newCount - oldCount) * 100 / oldCount
    if difference ≤ -3 then
      dipScan restCounts newCount (i + 1) (some (i, oldCount, difference))
    else
      match st with
      | some (ds, preDip, dd) =>
        let diffFromPreDip : ℚ := (newCount - preDip) * 100 / preDip
        if diffFromPreDip > -2 then (some (ds, preDip, dd), some i)
        else dipScan restCounts newCount (i + 1) (some (ds, preDip, dd))
      | none => dipScan restCounts newCount (i + 1) none

/-- Model of `_hourly_logs_seem_complete`, as a function of the ordered
5-minute bucket counts the warehouse query returns.  After the scan, a
dip that started but never visibly ended counts only when its initiating
drop was at least 10%; the function returns `false` (incomplete) iff a
dip both started and ended. -/
def hourlyLogsSeemComplete (results : List Int) : Bool :=
  match results with
  | [] => true
  | c0 :: restCounts =>
    match dipScan restCounts c0 1 none with
    | (none, _) => true
    | (some (_, _, dipDifference), dipEnd) =>
      !(dipEnd.isSome || decide (dipDifference ≤ -10))

/-! ## The consistency waiter
(`_table_decorator_end_time`, `create_timestamped_tables.py` 234–286)

External behaviour is an oracle pair: `now k` is what the `k`-th call of
`_now()` returns (a time_t), and `ready k endMs` is what the `k`-th call
of `_logs_are_up_to_date(start_ms, end_ms, end_time)` returns when passed
`end_ms = endMs`.  Sleeps are recorded, not performed; `time.sleep`'s
argument `60 * (1.5 ** i)` is exact in both IEEE double and ℚ for
`i < 30`. -/

/-- Result of the waiter: the chosen `end_ms`, the performed sleep
durations (in seconds) and the number of readiness queries issued — or
the `RuntimeError("Streaming logs never got up to date.")` after ten
failed attempts. -/
inductive WaiterResult : Type where
  | ok (endMs : Int) (sleeps : List ℚ) (polls : Nat)
  | fatal (sleeps : List ℚ) (polls : Nat)
deriving DecidableEq, Repr

/-- The `while end_ms < _now() * 1000` phase: each iteration consumes one
`_now()` sample for the loop test and, if the test holds, one readiness
poll; a failed poll extends `end_ms` by 5 minutes.  Returns the chosen
`end_ms` with the poll count, or the oracle-call state at which the loop
exits to the second phase.  The loop need not terminate (the oracle's
clock may keep outrunning the 5-minute extensions), hence the fuel;
`none` means the fuel ran out. -/
def waiterPhase1 (now : Nat → Int) (ready : Nat → Int → Bool) :
    Nat → Int → Nat → Nat → Nat → Option (Sum (Int × Nat) (Nat × Nat × Nat))
  | 0, _, _, _, _ => none
  | fuel + 1, endMs, ni, ri, polls =>
    if endMs < now ni * 1000 then
      if ready ri endMs then some (Sum.inl (endMs, polls + 1))
      else
        waiterPhase1 now ready fuel (endMs + 5 * 60 * 1000)
          (ni + 1) (ri + 1) (polls + 1)
    else some (Sum.inr (ni + 1, ri, polls))

/-- The `for i in xrange(10)` phase: each attempt re-samples `end_ms =
_now() * 1000`, polls, and on failure sleeps `60 * 1.5^i` seconds.
`remaining` counts the attempts left (10 at entry), `i` the attempt
index. -/
def waiterPhase2 (now : Nat → Int) (ready : Nat → Int → Bool) :
    Nat → Nat → Nat → Nat → List ℚ → Nat → WaiterResult
  | 0, _, _, _, sleeps, polls => .fatal sleeps polls
  | remaining + 1, i, ni, ri, sleeps, polls =>
    let endMs := now ni * 1000
    if ready ri endMs then .ok endMs sleeps (polls + 1)
    else
      waiterPhase2 now ready remaining (i + 1) (ni + 1) (ri + 1)
        (sleeps ++ [60 * (3 / 2 : ℚ) ^ i]) (polls + 1)

/-- Model of `_table_decorator_end_time(end_time)`:  `start_ms =
(end_time - 10) * 1000` (closed over by the `ready` oracle), the first
candidate boundary is `end_ms = (end_time + 16*60) * 1000`, extended by
5 minutes per failed poll while in the past; once the boundary reaches
the present, up to ten polls at `end_ms = now` with exponential-backoff
sleeps, then `RuntimeError`. -/
def tableDecoratorEndTime (now : Nat → Int) (ready : Nat → Int → Bool)
    (fuel : Nat) (endTime : Int) : Option WaiterResult :=
  match waiterPhase1 now ready fuel ((endTime + 16 * 60) * 1000) 0 0 0 with
  | none => none
  | some (Sum.inl (endMs, polls)) => some (.ok endMs [] polls)
  | some (Sum.inr (ni, ri, polls)) =>
    some (waiterPhase2 now ready 10 0 ni ri [] polls)

/-! ## The window planner
(`_times_of_missing_tables`, `create_timestamped_tables.py` 370–417)

Times are modelled as whole hours since the Unix epoch: the table name
`requestlogs_%Y%m%d_%H` is a strictly monotone function of the hour, so
name comparison and membership coincide with integer comparison and
membership; `sorted(...)[0]` is the minimum.  The `bq ls` output is
`none` when the command printed nothing (dataset empty) and
`some tables` otherwise, `tables` being the hours of the
`requestlogs_`-prefixed tables in the listing. -/

/-- The hours `start, start+1, …` produced by the
`while hour < end_time: … hour += timedelta(hours=1)` loop, with
`n = end - start` steps. -/
def hoursFrom (start : Int) : Nat → List Int
  | 0 => []
  | n + 1 => start :: hoursFrom (start + 1) n

/-- Model of `_times_of_missing_tables(end_time)`.  `nowH` is the current
hour (`datetime.datetime.utcnow()`), `endH` the `end_time` argument,
both in hours since epoch.  With an empty listing the scan starts at
midnight of the current UTC day and no candidate is excluded (in
Python 2, `name not in [None]` and `name > None` both hold for every
string).  With a non-empty listing the scan starts 6 days (144 hours)
before `endH` and keeps the hours with no table that lie strictly after
the earliest table; `sorted(...)[0]` on a listing that contains no
`requestlogs_` table raises `IndexError`, modelled by `none`. -/
def timesOfMissingTables (nowH endH : Int) (listing : Option (List Int)) :
    Option (List Int) :=
  match listing with
  | none =>
    let midnight := 24 * (nowH.fdiv 24)
    some (hoursFrom midnight (endH - midnight).toNat)
  | some tables =>
    match tables.min? with
    | none => none
    | some earliest =>
      let start := endH - 6 * 24
      some ((hoursFrom start (endH - start).toNat).filter
        fun h => !(tables.contains h) && decide (earliest < h))

/-! ## The fragment-join query
(`_VM_SUBTABLE_QUERY` and `_VM_MODULES_QUERY`,
`create_timestamped_tables.py` 70–178)

Relational model of the two queries over the rows read from
`logs_streaming.logs_all_time@start_ms-end_ms`.  A row keeps the columns
the queries inspect; the remaining request-log columns ride along inside
the row value itself (the final `SELECT *` keeps the whole request row).
`ANY_VALUE` is non-deterministic in the warehouse; it is modelled as the
first non-null value of the group, which every claim below is insensitive
to.  `ARRAY_CONCAT_AGG` concatenates in row order and skips nulls. -/

structure Row where
  request_id : Option String
  thread_id : Option String
  end_time : Int
  module_id : String
  app_logs : List String
  elog_country : Option String
  /-- each participation event contributes its (nullable) `bingo_id` -/
  bingo_participation_events : List (Option String)
  bingo_conversion_events : List (Option String)
deriving DecidableEq, Repr

/-- `col != "null" AND col IS NOT NULL` (legacy-SQL three-valued logic:
a NULL column fails the filter). -/
def isSet : Option String → Bool
  | none => false
  | some v => v != "null"

/-- `col = "null" or col IS NULL`. -/
def isUnset : Option String → Bool
  | none => true
  | some v => v == "null"

/-- `USING (col)` join equality: both sides non-NULL and equal. -/
def eqNonNull : Option String → Option String → Bool
  | some a, some b => a == b
  | _, _ => false

/-- `_VM_SUBTABLE_QUERY`: the rows of the source-read window whose
`end_time` lies in `[start_time, end_time)` and whose `module_id` is
`'vm'` — the temp table the vm-modules query then reads. -/
def vmSubtable (startTime endTime : Int) (events : List Row) : List Row :=
  events.filter fun r =>
    decide (startTime ≤ r.end_time) && decide (r.end_time < endTime) &&
    r.module_id == "vm"

/-- CTE `request`: rows with `request_id` set and `thread_id` unset. -/
def requestRows (t : List Row) : List Row :=
  t.filter fun r => isSet r.request_id && isUnset r.thread_id

/-- CTE `app_log`: rows with `thread_id` set. -/
def appLogRows (t : List Row) : List Row :=
  t.filter fun r => isSet r.thread_id

/-- CTE `link_line`: app-log rows that also carry a `request_id`;
`SELECT thread_id, request_id`. -/
def linkLines (t : List Row) : List (Option String × Option String) :=
  ((appLogRows t).filter fun r => isSet r.request_id).map
    fun r => (r.thread_id, r.request_id)

/-- CTE `kalog_line`: app-log rows `WHERE elog_country is not null`. -/
def kalogLines (t : List Row) : List Row :=
  (appLogRows t).filter fun r => r.elog_country.isSome

/-- CTE `bingo_participation_line`:
`bingo_participation_events[SAFE_OFFSET(0)] is not null AND
 bingo_participation_events[SAFE_OFFSET(0)].bingo_id is not null`. -/
def bingoParticipationLines (t : List Row) : List Row :=
  (appLogRows t).filter fun r =>
    match r.bingo_participation_events.head? with
    | some (some _) => true
    | _ => false

/-- CTE `bingo_conversion_line`, analogously. -/
def bingoConversionLines (t : List Row) : List Row :=
  (appLogRows t).filter fun r =>
    match r.bingo_conversion_events.head? with
    | some (some _) => true
    | _ => false

/-- `LEFT OUTER JOIN ys USING (thread_id)` against a fixed left-side
thread id: the matching rows, or a single NULL row when none match. -/
def leftMatches (tid : Option String) (ys : List Row) : List (Option Row) :=
  match ys.filter fun y => eqNonNull tid y.thread_id with
  | [] => [none]
  | ms => ms.map some

/-- One pre-aggregation tuple of the `joined_applog_lines` FROM clause:
a `link_line` row left-joined with `app_log`, `kalog_line`,
`bingo_participation_line` and `bingo_conversion_line` on `thread_id`. -/
structure JoinTuple where
  link : Option String × Option String
  app : Option Row
  kalog : Option Row
  bingoP : Option Row
  bingoC : Option Row
deriving DecidableEq, Repr

/-- The tuple multiset of `joined_applog_lines` before `GROUP BY`. -/
def joinTuples (t : List Row) : List JoinTuple :=
  (linkLines t).flatMap fun l =>
    (leftMatches l.1 (appLogRows t)).flatMap fun a =>
      (leftMatches l.1 (kalogLines t)).flatMap fun k =>
        (leftMatches l.1 (bingoParticipationLines t)).flatMap fun bp =>
          (leftMatches l.1 (bingoConversionLines t)).map fun bc =>
            ⟨l, a, k, bp, bc⟩

/-- The `GROUP BY link_line.request_id` keys, in first-appearance order
(one group per distinct key). -/
def groupKeys (t : List Row) : List (Option String) :=
  ((linkLines t).map Prod.snd).foldl
    (fun acc k => if k ∈ acc then acc else acc ++ [k]) []

/-- `ANY_VALUE(e)`: some value of `e` over the group, ignoring nulls. -/
def anyValue (vs : List (Option Row)) : Option Row :=
  (vs.filterMap id).head?

/-- One aggregated row of `joined_applog_lines`. -/
structure Frag where
  app_logs : List String
  kalog : Option Row
  bingo_participation : Option Row
  bingo_conversion : Option Row
  request_id : Option String
deriving DecidableEq, Repr

/-- The rows of `joined_applog_lines`: for each distinct
`link_line.request_id`, aggregate the join tuples of that group
(`ARRAY_CONCAT_AGG(app_log.app_logs)`, `ANY_VALUE(kalog_line.…)`,
`ANY_VALUE(bingo_…)`). -/
def joinedApplogLines (t : List Row) : List Frag :=
  (groupKeys t).map fun key =>
    let grp := (joinTuples t).filter fun tu => tu.link.2 == key
    { app_logs := (grp.map fun tu =>
        match tu.app with
        | some a => a.app_logs
        | none => []).flatten
      kalog := anyValue (grp.map JoinTuple.kalog)
      bingo_participation := anyValue (grp.map JoinTuple.bingoP)
      bingo_conversion := anyValue (grp.map JoinTuple.bingoC)
      request_id := key }

/-- The final `SELECT * FROM request LEFT OUTER JOIN joined_applog_lines
USING (request_id)`: each request row, paired with the matching
aggregated fragment record, or with `none` (all fragment-derived columns
NULL/empty) when no group matches. -/
def vmModulesQuery (startTime endTime : Int) (events : List Row) :
    List (Row × Option Frag) :=
  let t := vmSubtable startTime endTime events
  (requestRows t).flatMap fun r =>
    match (joinedApplogLines t).filter
        fun f => eqNonNull r.request_id f.request_id with
    | [] => [(r, none)]
    | ms => ms.map fun f => (r, some f)

/-! ## The per-window build and the orchestrator
(`_create_hourly_table` 420–535 and `main` 590–627)

The warehouse interactions of one run are modelled as a trace of `bq`
invocations.  `bq show`, `bq ls` and destination-less queries only read;
`bq mk`, queries with a destination table (unless issued with
`--dry_run`), `bq update --schema`, `bq cp --append_table` and `bq rm`
mutate warehouse state. -/

inductive BqOp : Type where
  | showTable (t : String)
  | lsTables
  | readQuery (purpose : String)
  | mkTable (t : String)
  | queryDest (dest : String) (append dry : Bool)
  | updateSchemaOp (t : String)
  | copyAppend (src dst : String)
  | rmTable (t : String)
deriving DecidableEq, Repr

/-- Whether an invocation can change warehouse state. -/
def BqOp.mutating : BqOp → Bool
  | .showTable _ => false
  | .lsTables => false
  | .readQuery _ => false
  | .mkTable _ => true
  | .queryDest _ _ dry => !dry
  | .updateSchemaOp _ => true
  | .copyAppend _ _ => true
  | .rmTable _ => true

def hourlyTableName (startTime : Int) : String :=
  "logs_new.requestlogs_hour_" ++ toString startTime

def dailyTableName (startTime : Int) : String :=
  "logs_new.requestlogs_day_" ++ toString startTime

def subTableName (startTime : Int) : String :=
  "logs_new.subquery_" ++ toString startTime

/-- Outcome of one `_create_hourly_table` call. -/
inductive BuildOutcome : Type where
  /-- returned normally -/
  | ok
  /-- raised `HourlyTableIncomplete` -/
  | incomplete
  /-- the waiter raised `RuntimeError` ("source never caught up") -/
  | sourceNeverCaughtUp
deriving DecidableEq, Repr

/-- The external world one `_create_hourly_table` call runs against. -/
structure BuildOracles where
  /-- `_now()` samples, by call index -/
  now : Nat → Int
  /-- `int(time.time())` when `search_harder_for_loglines` -/
  timeNow : Int
  /-- `_logs_are_up_to_date` results, by call index and `end_ms` -/
  ready : Nat → Int → Bool
  /-- fuel for the waiter's first phase -/
  waiterFuel : Nat
  /-- whether `bq show <hourly_table>` succeeds (table already exists) -/
  tableExists : Bool
  /-- the 5-minute bucket counts the completeness query returns -/
  buckets : List Int
  /-- `schema(_PROJECT, hourly_table)` -/
  hourlySchema : List Field
  /-- `schema(_PROJECT, daily_table)` inside `merge_and_update_schema` -/
  dailySchema : List Field
  /-- fuel for the dataflow schema merge -/
  mergeFuel : Nat

/-- Model of `_create_hourly_table(start_time, search_harder_for_loglines,
interactive, dry_run)`: the `bq` trace it produces and how it returns.
`startTime` is the window start as a time_t.  `interactive` only toggles
the `--batch` flag on queries and is irrelevant to the trace.  `none`
models only model-fuel exhaustion, never a behaviour of the Python.

Order of effects, as in the source: the streaming-schema read (line 446),
the `end_ms` computation — the consistency wait, unless
`search_harder_for_loglines` (466-467) —, the existence check and early
return (475-482), the temp-table `mk` (487, issued even under
`--dry-run`), the three destination queries (496-515), the completeness
check with delete-and-raise on failure (518-521), the schema merge into
the daily table (527-530, skipped under `--dry-run`) and the copy-append
(534-535, suppressed under `--dry-run`). -/
def createHourlyTable (o : BuildOracles) (startTime : Int)
    (searchHarder _interactive dryRun : Bool) :
    Option (List BqOp × BuildOutcome) :=
  let hourly := hourlyTableName startTime
  let daily := dailyTableName startTime
  let sub := subTableName startTime
  let schemaRead : List BqOp := [.showTable "logs_streaming.logs_all_time"]
  let waitResult : Option WaiterResult :=
    if searchHarder then some (.ok (o.timeNow * 1000) [] 0)
    else tableDecoratorEndTime o.now o.ready o.waiterFuel (startTime + 3600)
  match waitResult with
  | none => none
  | some (.fatal _ polls) =>
    some (schemaRead ++ List.replicate polls (.readQuery "logs_are_up_to_date"),
          .sourceNeverCaughtUp)
  | some (.ok _ _ polls) =>
    let pre := schemaRead ++
      List.replicate polls (.readQuery "logs_are_up_to_date") ++
      [.showTable hourly]
    if o.tableExists then some (pre, .ok)
    else
      let built := pre ++
        [.mkTable sub,
         .queryDest sub false dryRun,
         .queryDest hourly false dryRun,
         .queryDest hourly true dryRun,
         .readQuery "hourly_logs_seem_complete"]
      if !(hourlyLogsSeemComplete o.buckets) then
        some (built ++ [.rmTable hourly], .incomplete)
      else
        let updStep : Option (List BqOp) :=
          if dryRun then some []
          else
            match mergeAndUpdateSchema o.mergeFuel o.dailySchema
                o.hourlySchema false with
            | none => none
            | some (updateCalled, _, _) =>
              some ([.showTable hourly, .showTable daily] ++
                if updateCalled then [.updateSchemaOp daily] else [])
        match updStep with
        | none => none
        | some updOps =>
          some (built ++ updOps ++
            (if dryRun then [] else [.copyAppend hourly daily]), .ok)

/-- Model of `main`'s loop body for one window (lines 599–627).  The first
attempt is the positional call `_create_hourly_table(t, interactive,
dry_run)`, which binds `search_harder_for_loglines := interactive` and
`interactive := dry_run` and leaves `dry_run` at its default `False`.
`HourlyTableIncomplete` triggers exactly one retry with
`search_harder_for_loglines=True` and the flags passed by keyword; any
error of the retry (and any other error of the first attempt) is caught
by the generic handler, which removes the window's table and moves on. -/
def processWindow (o1 o2 : BuildOracles) (startTime : Int)
    (interactive dryRun : Bool) : Option (List BqOp) :=
  match createHourlyTable o1 startTime interactive dryRun false with
  | none => none
  | some (tr1, .ok) => some tr1
  | some (tr1, .sourceNeverCaughtUp) =>
    some (tr1 ++ [.rmTable (hourlyTableName startTime)])
  | some (tr1, .incomplete) =>
    match createHourlyTable o2 startTime true interactive dryRun with
    | none => none
    | some (tr2, .ok) => some (tr1 ++ tr2)
    | some (tr2, _) =>
      some (tr1 ++ tr2 ++ [.rmTable (hourlyTableName startTime)])

/-- Model of `main(interactive, dry_run)`: plan the missing windows from
the hourly-dataset listing (one `bq ls` read), then process each in
order.  `nowH` is the current hour; the planner is called with
`start_of_this_hour`, which in whole hours is `nowH` itself.  Window
hours are converted to time_t seconds for the build. -/
def mainModel (nowH : Int) (listing : Option (List Int))
    (oracles : Int → BuildOracles × BuildOracles)
    (interactive dryRun : Bool) : Option (List BqOp) :=
  match timesOfMissingTables nowH nowH listing with
  | none => none
  | some windows =>
    (windows.mapM fun h =>
      processWindow (oracles h).1 (oracles h).2 (h * 3600)
        interactive dryRun).map
      fun traces => .lsTables :: traces.flatten

/-! ## Concrete environments used by several theorems -/

/-- A source that never reports ready: the waiter's bounded search can
never succeed.  The clock stands at time_t 4000, so for a window starting
at 0 the first candidate boundary (4560000 ms) is already in the future
and the waiter goes straight to its backoff phase. -/
def oracleNeverReady : BuildOracles :=
  { now := fun _ => 4000, timeNow := 4000, ready := fun _ _ => false,
    waiterFuel := 1, tableExists := false, buckets := [100, 100],
    hourlySchema := [], dailySchema := [], mergeFuel := 100 }

/-- The same environment with a source that is ready at once. -/
def oracleReady : BuildOracles :=
  { oracleNeverReady with ready := fun _ _ => true }

/-- Ready source, but the completeness query reports the dip
`[100, 100, 100, 40, 100, 100]`. -/
def oracleBadBuckets : BuildOracles :=
  { oracleReady with buckets := [100, 100, 100, 40, 100, 100] }

/-! ## Helper lemmas for the schema-merge theorems -/

theorem Field.beqList_refl (l : List Field) : Field.beqList l l = true :=
  (Field.beqList_iff l l).mpr rfl

theorem mergeStep_snd_of_mem (lf : Field) (orig : List String)
    (cur app : List Field) (h : lf.name ∈ orig) :
    (mergeStep lf orig cur app).2 = app := by
  cases lf with
  | mk nm tp md sub =>
    simp only [Field.name] at h
    simp only [mergeStep, if_pos h]
    split <;> rfl

theorem mergeAux_snd_of_names (pending : List Field) (orig : List String)
    (h : ∀ f ∈ pending, f.name ∈ orig) :
    ∀ cur app, (mergeAux pending orig cur app).2 = app := by
  induction pending with
  | nil => intro cur app; rfl
  | cons lf rest ih =>
    intro cur app
    have hlf : lf.name ∈ orig := h lf (by simp)
    have hrest : ∀ f ∈ rest, f.name ∈ orig := fun f hf => h f (by simp [hf])
    cases lf with
    | mk nm tp md sub =>
      rw [mergeAux]
      rw [ih hrest]
      exact mergeStep_snd_of_mem _ _ _ _ hlf

theorem mergeDfAux_snd_of_names (fuel : Nat) :
    ∀ (orig : List String) (pending cur app : List Field)
      (p : List Field × List Field),
      (∀ f ∈ pending, f.name ∈ orig) →
      mergeDfAux fuel orig pending cur app = some p → p.2 = app := by
  induction fuel with
  | zero => intro orig pending cur app p _ heq; simp [mergeDfAux] at heq
  | succ fuel ih =>
    intro orig pending cur app p h hmatch
    match pending with
    | [] =>
      simp only [mergeDfAux, Option.some.injEq] at hmatch
      rw [← hmatch]
    | Field.mk nm tp md sub :: rest =>
      have hnm : nm ∈ orig := by
        have := h (Field.mk nm tp md sub) (by simp)
        simpa [Field.name] using this
      have hrest : ∀ f ∈ rest, f.name ∈ orig := fun f hf => h f (by simp [hf])
      rw [mergeDfAux, if_pos hnm] at hmatch
      by_cases htp : tp = "RECORD"
      · rw [if_pos htp] at hmatch
        rcases hidx : lastIdxNamed nm cur with _ | i
        · rw [hidx] at hmatch
          exact ih orig rest cur app p hrest hmatch
        · rw [hidx] at hmatch
          rcases hq : mergeDfAux fuel (names sub)
              (cur.getD i (Field.mk "" "" none [])).fields sub [] with _ | q
          · simp only [hq] at hmatch
            exact absurd hmatch (by simp)
          · simp only [hq] at hmatch
            exact ih orig rest _ app p hrest hmatch
      · rw [if_neg htp] at hmatch
        exact ih orig rest cur app p hrest hmatch

/-! ## Helper lemmas about schemas with unique names -/

theorem Field.sizeOf_fields_lt (f : Field) : sizeOf f.fields < sizeOf f := by
  cases f with
  | mk n t m fs => simp [Field.fields]

theorem lastIdxNamed_lt {nm : String} :
    ∀ {l : List Field} {i : Nat}, lastIdxNamed nm l = some i → i < l.length := by
  intro l
  induction l with
  | nil => intro i h; simp [lastIdxNamed] at h
  | cons f rest ih =>
    intro i h
    rw [lastIdxNamed] at h
    rcases hr : lastIdxNamed nm rest with _ | j
    · rw [hr] at h
      by_cases hn : f.name = nm
      · rw [if_pos hn] at h
        simp at h
        subst h
        simp
      · rw [if_neg hn] at h
        simp at h
    · rw [hr] at h
      have := ih hr
      simp at h
      simp
      omega

theorem lastIdxNamed_name {nm : String} (d : Field) :
    ∀ {l : List Field} {i : Nat}, lastIdxNamed nm l = some i →
      (l.getD i d).name = nm := by
  intro l
  induction l with
  | nil => intro i h; simp [lastIdxNamed] at h
  | cons f rest ih =>
    intro i h
    rw [lastIdxNamed] at h
    rcases hr : lastIdxNamed nm rest with _ | j
    · rw [hr] at h
      by_cases hn : f.name = nm
      · rw [if_pos hn] at h
        simp at h
        subst h
        simpa using hn
      · rw [if_neg hn] at h
        simp at h
    · rw [hr] at h
      simp at h
      subst h
      simpa using ih hr

theorem lastIdxNamed_of_mem {nm : String} :
    ∀ {l : List Field}, nm ∈ names l → ∃ i, lastIdxNamed nm l = some i := by
  intro l
  induction l with
  | nil => intro h; simp [names] at h
  | cons f rest ih =>
    intro h
    rw [lastIdxNamed]
    rcases hr : lastIdxNamed nm rest with _ | j
    · have hn : f.name = nm := by
        rcases (by simpa [names] using h :
            nm = f.name ∨ ∃ a ∈ rest, a.name = nm) with h' | h'
        · exact h'.symm
        · obtain ⟨i, hi⟩ := ih (by simpa [names] using h')
          rw [hi] at hr
          exact absurd hr (by simp)
      exact ⟨0, by rw [if_pos hn]⟩
    · exact ⟨j + 1, rfl⟩

theorem getD_mem {l : List Field} {i : Nat} (d : Field) (h : i < l.length) :
    l.getD i d ∈ l := by
  rw [List.getD_eq_getElem l d h]
  exact List.getElem_mem h

/-- With unique top-level names, two members sharing a name are the same
element. -/
theorem nodupNames_unique :
    ∀ {l : List Field}, nodupNames l = true →
      ∀ {f g : Field}, f ∈ l → g ∈ l → f.name = g.name → f = g := by
  intro l
  induction l with
  | nil => intro _ f g hf; simp at hf
  | cons x rest ih =>
    intro hnd f g hf hg hfg
    rw [nodupNames] at hnd
    simp only [Bool.and_eq_true, Bool.not_eq_true'] at hnd
    obtain ⟨⟨hx, _⟩, hrest⟩ := hnd
    have hxnot : x.name ∉ names rest := by
      intro hmem
      rw [(by simpa using List.elem_iff.mpr hmem : (names rest).contains x.name = true)] at hx
      exact absurd hx (by simp)
    rcases List.mem_cons.mp hf with rfl | hf' <;>
      rcases List.mem_cons.mp hg with rfl | hg'
    · rfl
    · exact absurd (hfg ▸ List.mem_map_of_mem Field.name hg') hxnot
    · exact absurd (hfg ▸ List.mem_map_of_mem Field.name hf') hxnot
    · exact ih hrest hf' hg' hfg

theorem nodupNames_of_mem :
    ∀ {l : List Field}, nodupNames l = true →
      ∀ {f : Field}, f ∈ l → nodupNames f.fields = true := by
  intro l
  induction l with
  | nil => intro _ f hf; simp at hf
  | cons x rest ih =>
    intro hnd f hf
    rw [nodupNames] at hnd
    simp only [Bool.and_eq_true] at hnd
    obtain ⟨⟨_, hxf⟩, hrest⟩ := hnd
    rcases List.mem_cons.mp hf with rfl | hf'
    · cases f with
      | mk n t m fs => simpa [nodupNamesField, Field.fields] using hxf
    · exact ih hrest hf'

theorem set_getD_self :
    ∀ (l : List Field) (i : Nat) (d : Field), i < l.length →
      l.set i (l.getD i d) = l := by
  intro l
  induction l with
  | nil => intro i d h; simp at h
  | cons x rest ih =>
    intro i d h
    cases i with
    | zero => simp
    | succ j =>
      simp only [List.getD_cons_succ, List.set_cons_succ, List.cons.injEq,
        true_and]
      exact ih j d (by simpa using h)

theorem mem_set_self (l : List Field) (i : Nat) (a : Field)
    (h : i < l.length) : a ∈ l.set i a := by
  have h' : i < (l.set i a).length := by simpa using h
  have hm := List.getElem_mem h'
  rwa [List.getElem_set_self] at hm

/-! ## Idempotence of the `update_schema.py` merge -/

/-- Running the merge loop of `_merge_schemas` with the working list equal
to the streaming schema and a pending list of fields already present in it
(with unique names at every level) changes nothing: each pending RECORD
field finds itself in the working list and the nested merge of a subtree
with itself returns it unchanged. -/
theorem mergeAux_self :
    ∀ (cur : List Field), nodupNames cur = true →
    ∀ (pending : List Field), (∀ f ∈ pending, f ∈ cur) → ∀ app,
      mergeAux pending (names cur) cur app = (cur, app)
  | _, _, [], _, _ => by rw [mergeAux]
  | cur, hnd, Field.mk nm tp md sub :: rest, hmem, app => by
    have hf : Field.mk nm tp md sub ∈ cur := hmem _ (List.mem_cons_self _ _)
    have hszf : sizeOf (Field.mk nm tp md sub) < sizeOf cur :=
      List.sizeOf_lt_of_mem hf
    have hszsub : sizeOf sub < sizeOf cur := by
      have h1 := Field.sizeOf_fields_lt (Field.mk nm tp md sub)
      simp only [Field.fields] at h1
      omega
    have hrest : ∀ f ∈ rest, f ∈ cur :=
      fun f hf' => hmem f (List.mem_cons_of_mem _ hf')
    have hnm : nm ∈ names cur := by
      have := List.mem_map_of_mem Field.name hf
      simpa [names, Field.name] using this
    rw [mergeAux]
    by_cases htp : tp = "RECORD"
    · obtain ⟨i, hi⟩ := lastIdxNamed_of_mem hnm
      have hilt : i < cur.length := lastIdxNamed_lt hi
      have hsf : cur.getD i (Field.mk "" "" none []) = Field.mk nm tp md sub :=
        nodupNames_unique hnd (getD_mem _ hilt) hf
          (by simpa [Field.name] using lastIdxNamed_name _ hi)
      have hq : mergeAux sub (names sub) sub [] = (sub, []) :=
        mergeAux_self sub
          (by simpa [nodupNamesField] using nodupNames_of_mem hnd hf)
          sub (fun f hf' => hf') []
      have hstep : mergeStep (Field.mk nm tp md sub) (names cur) cur app =
          (cur, app) := by
        simp only [mergeStep, if_pos hnm, if_pos htp, hi, hsf, Field.fields,
          Field.name, Field.type, Field.mode]
        rw [hq]
        simp only [List.append_nil]
        rw [show Field.mk nm tp md sub =
          cur.getD i (Field.mk "" "" none []) from hsf.symm]
        rw [set_getD_self cur i _ hilt]
      rw [hstep]
      exact mergeAux_self cur hnd rest hrest app
    · have hstep : mergeStep (Field.mk nm tp md sub) (names cur) cur app =
          (cur, app) := by
        rw [mergeStep, if_pos hnm, if_neg htp]
      rw [hstep]
      exact mergeAux_self cur hnd rest hrest app
termination_by cur _ pending _ _ => sizeOf cur + sizeOf pending
decreasing_by
  all_goals simp only [List.cons.sizeOf_spec, Field.mk.sizeOf_spec]
  all_goals omega

/-- `_merge_schemas(S, S) == S` for every schema with unique names per
level. -/
theorem mergeSchemas_idem (S : List Field) (hnd : nodupNames S = true) :
    mergeSchemas S S = S := by
  rw [mergeSchemas]
  rw [mergeAux_self S hnd S (fun f hf => hf) []]
  simp

/-! ## The additive-extension relation -/

/-- `Additive old new` says `new` extends `old` additively: every field of
`old` is still present at the same position, with the same name, type and
mode, its subfield tree itself extended additively, and `new` may carry
extra fields appended after them.  This is the invariant the spec calls
"additive only". -/
inductive Additive : List Field → List Field → Prop where
  | nil : ∀ new, Additive [] new
  | cons : ∀ (n t : String) (m : Option String) (fs fs' old new : List Field),
      Additive fs fs' → Additive old new →
      Additive (Field.mk n t m fs :: old) (Field.mk n t m fs' :: new)

theorem additiveRefl : ∀ l : List Field, Additive l l
  | [] => .nil []
  | Field.mk n t m fs :: rest =>
    .cons n t m fs fs rest rest (additiveRefl fs) (additiveRefl rest)
termination_by l => sizeOf l
decreasing_by
  all_goals simp only [List.cons.sizeOf_spec, Field.mk.sizeOf_spec]
  all_goals omega

theorem Additive.trans :
    ∀ {a b c : List Field}, Additive a b → Additive b c → Additive a c := by
  intro a b c hab
  induction hab generalizing c with
  | nil => intro _; exact .nil c
  | cons n t m fs fs' old new hfs hold ihfs ihold =>
    intro hbc
    cases hbc with
    | cons _ _ _ _ fs'' _ new' hfs' hnew' =>
      exact .cons n t m fs fs'' old new' (ihfs hfs') (ihold hnew')

theorem Additive.append_right :
    ∀ {a b : List Field}, Additive a b → ∀ ext, Additive a (b ++ ext) := by
  intro a b hab
  induction hab with
  | nil => intro ext; exact .nil _
  | cons n t m fs fs' old new hfs _ _ ihold =>
    intro ext
    exact .cons n t m fs fs' old (new ++ ext) hfs (ihold ext)

/-- Reassigning the `fields` entry of one dict to an additive extension is
an additive extension of the whole list. -/
theorem Additive.set :
    ∀ (cur : List Field) (i : Nat) (d : Field) (fs' : List Field),
      i < cur.length → Additive (cur.getD i d).fields fs' →
      Additive cur (cur.set i (Field.mk (cur.getD i d).name
        (cur.getD i d).type (cur.getD i d).mode fs')) := by
  intro cur
  induction cur with
  | nil => intro i d fs' h; simp at h
  | cons x rest ih =>
    intro i d fs' h hadd
    cases i with
    | zero =>
      cases x with
      | mk n t m fs =>
        simp only [List.getD_cons_zero, Field.name, Field.type, Field.mode,
          Field.fields, List.set_cons_zero] at hadd ⊢
        exact .cons n t m fs fs' rest rest hadd (additiveRefl rest)
    | succ j =>
      cases x with
      | mk n t m fs =>
        simp only [List.getD_cons_succ, List.set_cons_succ]
        exact .cons n t m fs fs rest _ (additiveRefl fs)
          (ih j d fs' (by simpa using h) hadd)

/-- Every member of the smaller side of an additive extension survives with
its name, type and an additively-extended subfield tree. -/
theorem Additive.mem_lift :
    ∀ {b c : List Field}, Additive b c → ∀ {g : Field}, g ∈ b →
      ∃ g' ∈ c, g'.name = g.name ∧ g'.type = g.type ∧
        Additive g.fields g'.fields := by
  intro b c hbc
  induction hbc with
  | nil => intro g hg; simp at hg
  | cons n t m fs fs' old new hfs _ _ ihold =>
    intro g hg
    rcases List.mem_cons.mp hg with rfl | hg'
    · exact ⟨Field.mk n t m fs', List.mem_cons_self _ _, rfl, rfl,
        by simpa [Field.fields] using hfs⟩
    · obtain ⟨g', hg'c, hn, ht, ha⟩ := ihold hg'
      exact ⟨g', List.mem_cons_of_mem _ hg'c, hn, ht, ha⟩

theorem Additive.name_mem {b c : List Field} (hbc : Additive b c)
    {nm : String} (h : nm ∈ names b) : nm ∈ names c := by
  obtain ⟨g, hg, hgnm⟩ := by simpa [names] using h
  obtain ⟨g', hg'c, hn, _, _⟩ := hbc.mem_lift hg
  exact (by simpa [names] using ⟨g', hg'c, hn.trans hgnm⟩)

/-! ## Recursive name-presence -/

/-- `NamesIn S T`: every field name of `S` appears among the names of `T`,
and recursively so on the subfield trees whenever both sides are RECORD
typed.  This is the sense in which the logs-side names survive the
merge. -/
def NamesIn (S T : List Field) : Prop :=
  ∀ f, f ∈ S → ∃ g, g ∈ T ∧ g.name = f.name ∧
    (f.type = "RECORD" → g.type = "RECORD" → NamesIn f.fields g.fields)
termination_by sizeOf S
decreasing_by
  rename_i hmem _hfr _hgr
  have h1 := List.sizeOf_lt_of_mem hmem
  have h2 := Field.sizeOf_fields_lt f
  omega

theorem namesInRefl (S : List Field) : NamesIn S S := by
  unfold NamesIn
  intro f hf
  exact ⟨f, hf, Eq.refl _, fun _ _ => namesInRefl f.fields⟩
termination_by sizeOf S
decreasing_by
  have h1 := List.sizeOf_lt_of_mem hf
  have h2 := Field.sizeOf_fields_lt f
  omega

/-- Name-presence is stable under additive extension of the right side. -/
theorem NamesIn.mono :
    ∀ {a b c : List Field}, NamesIn a b → Additive b c → NamesIn a c := by
  intro a b c hab hbc
  unfold NamesIn at hab ⊢
  intro f hf
  obtain ⟨g, hgb, hname, hrec⟩ := hab f hf
  obtain ⟨g', hg'c, hn', ht', hadd⟩ := hbc.mem_lift hgb
  refine ⟨g', hg'c, hn'.trans hname, fun hfr hgr => ?_⟩
  exact NamesIn.mono (hrec hfr (ht'.symm ▸ hgr)) hadd
termination_by a _ _ _ _ => sizeOf a
decreasing_by
  have h1 := List.sizeOf_lt_of_mem hf
  have h2 := Field.sizeOf_fields_lt f
  omega

/-- An additive extension in particular preserves all names recursively. -/
theorem Additive.namesIn :
    ∀ {b c : List Field}, Additive b c → NamesIn b c := by
  intro b c hbc
  induction hbc with
  | nil => unfold NamesIn; intro f hf; simp at hf
  | cons n t m fs fs' old new hfs hold ihfs ihold =>
    unfold NamesIn
    intro f hf
    rcases List.mem_cons.mp hf with rfl | hf'
    · exact ⟨Field.mk n t m fs', List.mem_cons_self _ _, rfl,
        fun _ _ => by simpa [Field.fields] using ihfs⟩
    · unfold NamesIn at ihold
      obtain ⟨g, hg, hn, hr⟩ := ihold f hf'
      exact ⟨g, List.mem_cons_of_mem _ hg, hn, hr⟩

/-! ## The merge is additive and name-complete -/

/-- Loop invariant of `_merge_schemas` (`update_schema.py`): provided every
map key has a field in the working list (true at entry, where the map is
built from it), the loop only extends the working list additively, only
appends to the appended suffix, and leaves every pending field either
represented by name (recursively, when RECORD on both sides) in the working
list or appended verbatim. -/
theorem mergeAux_invariant :
    ∀ (pending : List Field) (orig : List String) (cur app : List Field),
      (∀ nm, nm ∈ orig → nm ∈ names cur) →
      Additive cur (mergeAux pending orig cur app).1 ∧
      (∃ ext, (mergeAux pending orig cur app).2 = app ++ ext) ∧
      (∀ f, f ∈ pending →
        (∃ g, g ∈ (mergeAux pending orig cur app).1 ∧ g.name = f.name ∧
          (f.type = "RECORD" → g.type = "RECORD" →
            NamesIn f.fields g.fields)) ∨
        f ∈ (mergeAux pending orig cur app).2)
  | [], orig, cur, app, _ => by
    rw [mergeAux]
    exact ⟨additiveRefl cur, ⟨[], by simp⟩, fun f hf => absurd hf (by simp)⟩
  | Field.mk nm tp md sub :: rest, orig, cur, app, hinv => by
    rw [mergeAux]
    by_cases hnm : nm ∈ orig
    · by_cases htp : tp = "RECORD"
      · obtain ⟨i, hi⟩ := lastIdxNamed_of_mem (hinv nm hnm)
        have hilt : i < cur.length := lastIdxNamed_lt hi
        have hsfname : (cur.getD i (Field.mk "" "" none [])).name = nm :=
          lastIdxNamed_name _ hi
        obtain ⟨hq1, ⟨qext, hq2⟩, hq3⟩ :=
          mergeAux_invariant sub
            (names (cur.getD i (Field.mk "" "" none [])).fields)
            (cur.getD i (Field.mk "" "" none [])).fields [] (fun _ h => h)
        have hstep : mergeStep (Field.mk nm tp md sub) orig cur app =
            (cur.set i (Field.mk (cur.getD i (Field.mk "" "" none [])).name
              (cur.getD i (Field.mk "" "" none [])).type
              (cur.getD i (Field.mk "" "" none [])).mode
              ((mergeAux sub
                  (names (cur.getD i (Field.mk "" "" none [])).fields)
                  (cur.getD i (Field.mk "" "" none [])).fields []).1 ++
               (mergeAux sub
                  (names (cur.getD i (Field.mk "" "" none [])).fields)
                  (cur.getD i (Field.mk "" "" none [])).fields []).2)),
             app) := by
          simp only [mergeStep, if_pos hnm, if_pos htp, hi]
        rw [hstep]
        have hsub : Additive (cur.getD i (Field.mk "" "" none [])).fields
            ((mergeAux sub
                (names (cur.getD i (Field.mk "" "" none [])).fields)
                (cur.getD i (Field.mk "" "" none [])).fields []).1 ++
             (mergeAux sub
                (names (cur.getD i (Field.mk "" "" none [])).fields)
                (cur.getD i (Field.mk "" "" none [])).fields []).2) :=
          hq1.append_right _
        have hcur' := Additive.set cur i (Field.mk "" "" none []) _ hilt hsub
        have hinv' : ∀ nm', nm' ∈ orig → nm' ∈ names
            (cur.set i (Field.mk (cur.getD i (Field.mk "" "" none [])).name
              (cur.getD i (Field.mk "" "" none [])).type
              (cur.getD i (Field.mk "" "" none [])).mode
              ((mergeAux sub
                  (names (cur.getD i (Field.mk "" "" none [])).fields)
                  (cur.getD i (Field.mk "" "" none [])).fields []).1 ++
               (mergeAux sub
                  (names (cur.getD i (Field.mk "" "" none [])).fields)
                  (cur.getD i (Field.mk "" "" none [])).fields []).2))) :=
          fun nm' h => hcur'.name_mem (hinv nm' h)
        obtain ⟨hr1, ⟨ext, hr2⟩, hr3⟩ :=
          mergeAux_invariant rest orig _ app hinv'
        refine ⟨hcur'.trans hr1, ⟨ext, hr2⟩, fun f hf => ?_⟩
        rcases List.mem_cons.mp hf with rfl | hf'
        · left
          have hgnew : (Field.mk (cur.getD i (Field.mk "" "" none [])).name
              (cur.getD i (Field.mk "" "" none [])).type
              (cur.getD i (Field.mk "" "" none [])).mode
              ((mergeAux sub
                  (names (cur.getD i (Field.mk "" "" none [])).fields)
                  (cur.getD i (Field.mk "" "" none [])).fields []).1 ++
               (mergeAux sub
                  (names (cur.getD i (Field.mk "" "" none [])).fields)
                  (cur.getD i (Field.mk "" "" none [])).fields []).2)) ∈
              (cur.set i (Field.mk (cur.getD i (Field.mk "" "" none [])).name
                (cur.getD i (Field.mk "" "" none [])).type
                (cur.getD i (Field.mk "" "" none [])).mode
                ((mergeAux sub
                    (names (cur.getD i (Field.mk "" "" none [])).fields)
                    (cur.getD i (Field.mk "" "" none [])).fields []).1 ++
                 (mergeAux sub
                    (names (cur.getD i (Field.mk "" "" none [])).fields)
                    (cur.getD i (Field.mk "" "" none [])).fields []).2))) := by
            exact mem_set_self cur i _ hilt
          obtain ⟨g', hg'mem, hg'name, hg'type, hg'add⟩ := hr1.mem_lift hgnew
          refine ⟨g', hg'mem, ?_, fun _ _ => ?_⟩
          · have h' : g'.name = (cur.getD i (Field.mk "" "" none [])).name :=
              hg'name
            exact h'.trans hsfname
          · have hnames : NamesIn sub
                ((mergeAux sub
                    (names (cur.getD i (Field.mk "" "" none [])).fields)
                    (cur.getD i (Field.mk "" "" none [])).fields []).1 ++
                 (mergeAux sub
                    (names (cur.getD i (Field.mk "" "" none [])).fields)
                    (cur.getD i (Field.mk "" "" none [])).fields []).2) := by
              unfold NamesIn
              intro x hx
              rcases hq3 x hx with ⟨g, hg, hn, hrec⟩ | hxapp
              · exact ⟨g, List.mem_append_left _ hg, hn, hrec⟩
              · exact ⟨x, List.mem_append_right _ hxapp, Eq.refl _,
                  fun _ _ => namesInRefl x.fields⟩
            have := NamesIn.mono hnames (by simpa [Field.fields] using hg'add)
            simpa [Field.fields] using this
        · exact hr3 f hf'
      · have hstep : mergeStep (Field.mk nm tp md sub) orig cur app =
            (cur, app) := by
          rw [mergeStep, if_pos hnm, if_neg htp]
        rw [hstep]
        obtain ⟨hr1, ⟨ext, hr2⟩, hr3⟩ :=
          mergeAux_invariant rest orig cur app hinv
        refine ⟨hr1, ⟨ext, hr2⟩, fun f hf => ?_⟩
        rcases List.mem_cons.mp hf with rfl | hf'
        · left
          have hnmf : nm ∈ names (mergeAux rest orig cur app).1 :=
            hr1.name_mem (hinv nm hnm)
          obtain ⟨g, hg, hgname⟩ := by simpa [names] using hnmf
          exact ⟨g, hg, by simpa [Field.name] using hgname,
            fun hrec _ => absurd hrec (by simpa [Field.type] using htp)⟩
        · exact hr3 f hf'
    · have hstep : mergeStep (Field.mk nm tp md sub) orig cur app =
          (cur, app ++ [Field.mk nm tp md sub]) := by
        rw [mergeStep, if_neg hnm]
      rw [hstep]
      obtain ⟨hr1, ⟨ext, hr2⟩, hr3⟩ :=
        mergeAux_invariant rest orig cur (app ++ [Field.mk nm tp md sub]) hinv
      refine ⟨hr1, ⟨[Field.mk nm tp md sub] ++ ext, by simp [hr2]⟩,
        fun f hf => ?_⟩
      rcases List.mem_cons.mp hf with rfl | hf'
      · right
        rw [hr2]
        simp
      · exact hr3 f hf'
termination_by pending _ _ _ _ => sizeOf pending
decreasing_by
  all_goals simp only [List.cons.sizeOf_spec, Field.mk.sizeOf_spec]
  all_goals omega

/-- The streaming schema is extended additively by the merge. -/
theorem mergeSchemas_additive (logs streaming : List Field) :
    Additive streaming (mergeSchemas logs streaming) := by
  obtain ⟨h1, _, _⟩ :=
    mergeAux_invariant logs (names streaming) streaming [] (fun _ h => h)
  rw [mergeSchemas]
  exact h1.append_right _

/-- Every logs-side name is present in the merge result, recursively on
shared RECORD fields. -/
theorem mergeSchemas_namesIn_logs (logs streaming : List Field) :
    NamesIn logs (mergeSchemas logs streaming) := by
  obtain ⟨_, _, h3⟩ :=
    mergeAux_invariant logs (names streaming) streaming [] (fun _ h => h)
  rw [mergeSchemas]
  unfold NamesIn
  intro f hf
  rcases h3 f hf with ⟨g, hg, hn, hrec⟩ | hfapp
  · exact ⟨g, List.mem_append_left _ hg, hn, hrec⟩
  · exact ⟨f, List.mem_append_right _ hfapp, Eq.refl _,
      fun _ _ => namesInRefl f.fields⟩

/-- Every streaming-side name is present in the merge result, recursively
(a consequence of additivity). -/
theorem mergeSchemas_namesIn_streaming (logs streaming : List Field) :
    NamesIn streaming (mergeSchemas logs streaming) :=
  (mergeSchemas_additive logs streaming).namesIn

/-! ## The dataflow revision: idempotence and top-level preservation -/

/-- A returning run of the dataflow merge loop with the pending fields
already present in the (unique-named) working list changes nothing: the
self-merge case never sees the role swap, because the field found for a
pending name is that field itself. -/
theorem mergeDfAux_self :
    ∀ (fuel : Nat) (cur : List Field), nodupNames cur = true →
      ∀ (pending : List Field), (∀ f ∈ pending, f ∈ cur) →
      ∀ (app : List Field) (r : List Field × List Field),
        mergeDfAux fuel (names cur) pending cur app = some r →
        r = (cur, app) := by
  intro fuel
  induction fuel with
  | zero =>
    intro cur _ pending _ app r h
    simp [mergeDfAux] at h
  | succ fuel ih =>
    intro cur hnd pending hmem app r h
    match pending with
    | [] =>
      simp only [mergeDfAux, Option.some.injEq] at h
      exact h.symm
    | Field.mk nm tp md sub :: rest =>
      have hf : Field.mk nm tp md sub ∈ cur := hmem _ (List.mem_cons_self _ _)
      have hrest : ∀ f ∈ rest, f ∈ cur :=
        fun f hf' => hmem f (List.mem_cons_of_mem _ hf')
      have hnm : nm ∈ names cur := by
        have := List.mem_map_of_mem Field.name hf
        simpa [names, Field.name] using this
      rw [mergeDfAux, if_pos hnm] at h
      by_cases htp : tp = "RECORD"
      · rw [if_pos htp] at h
        obtain ⟨i, hi⟩ := lastIdxNamed_of_mem hnm
        simp only [hi] at h
        have hilt : i < cur.length := lastIdxNamed_lt hi
        have hsf : cur.getD i (Field.mk "" "" none []) =
            Field.mk nm tp md sub :=
          nodupNames_unique hnd (getD_mem _ hilt) hf
            (by simpa [Field.name] using lastIdxNamed_name _ hi)
        rw [hsf] at h
        simp only [Field.fields, Field.name, Field.type, Field.mode] at h
        rcases hq : mergeDfAux fuel (names sub) sub sub [] with _ | q
        · rw [hq] at h
          exact absurd h (by simp)
        · rw [hq] at h
          have hqeq : q = (sub, []) :=
            ih sub (by simpa [nodupNamesField] using nodupNames_of_mem hnd hf)
              sub (fun f hf' => hf') [] q hq
          subst hqeq
          simp only [List.append_nil] at h
          rw [show Field.mk nm tp md sub =
            cur.getD i (Field.mk "" "" none []) from hsf.symm,
            set_getD_self cur i _ hilt] at h
          exact ih cur hnd rest hrest app r h
      · rw [if_neg htp] at h
        exact ih cur hnd rest hrest app r h

/-- `_merge_schemas(S, S) == S` for the dataflow revision, on every run
with enough fuel. -/
theorem mergeSchemasDf_idem (fuel : Nat) (S : List Field)
    (hnd : nodupNames S = true) (r : List Field)
    (h : mergeSchemasDf fuel S S = some r) : r = S := by
  rw [mergeSchemasDf] at h
  rcases hq : mergeDfAux fuel (names S) S S [] with _ | q
  · rw [hq] at h
    exact absurd h (by simp)
  · rw [hq] at h
    have := mergeDfAux_self fuel S hnd S (fun f hf => hf) [] q hq
    subst this
    simpa using h.symm

/-- The dataflow merge loop never changes the length of the working list,
nor the name, type or mode of any entry (only `fields` entries are
reassigned); and it only appends to the appended suffix. -/
theorem mergeDfAux_top :
    ∀ (fuel : Nat) (orig : List String) (pending cur app : List Field)
      (p : List Field × List Field),
      mergeDfAux fuel orig pending cur app = some p →
      p.1.length = cur.length ∧
      (∀ i d, i < cur.length →
        (p.1.getD i d).name = (cur.getD i d).name ∧
        (p.1.getD i d).type = (cur.getD i d).type ∧
        (p.1.getD i d).mode = (cur.getD i d).mode) ∧
      (∃ ext, p.2 = app ++ ext) := by
  intro fuel
  induction fuel with
  | zero =>
    intro orig pending cur app p h
    simp [mergeDfAux] at h
  | succ fuel ih =>
    intro orig pending cur app p h
    match pending with
    | [] =>
      simp only [mergeDfAux, Option.some.injEq] at h
      subst h
      exact ⟨rfl, fun i d _ => ⟨rfl, rfl, rfl⟩, ⟨[], by simp⟩⟩
    | Field.mk nm tp md sub :: rest =>
      rw [mergeDfAux] at h
      by_cases hnm : nm ∈ orig
      · rw [if_pos hnm] at h
        by_cases htp : tp = "RECORD"
        · rw [if_pos htp] at h
          rcases hidx : lastIdxNamed nm cur with _ | i
          · simp only [hidx] at h
            exact ih orig rest cur app p h
          · simp only [hidx] at h
            have hilt : i < cur.length := lastIdxNamed_lt hidx
            rcases hq : mergeDfAux fuel (names sub)
                (cur.getD i (Field.mk "" "" none [])).fields sub [] with _ | q
            · rw [hq] at h
              exact absurd h (by simp)
            · rw [hq] at h
              obtain ⟨hl, hntm, hext⟩ := ih orig rest _ app p h
              have hlset : (cur.set i (Field.mk
                  (cur.getD i (Field.mk "" "" none [])).name
                  (cur.getD i (Field.mk "" "" none [])).type
                  (cur.getD i (Field.mk "" "" none [])).mode
                  (q.1 ++ q.2))).length = cur.length := by simp
              refine ⟨hl.trans hlset, fun j d hj => ?_, hext⟩
              obtain ⟨hn, ht, hm⟩ := hntm j d (by rw [hlset]; exact hj)
              by_cases hji : j = i
              · subst hji
                have hdd : cur.getD j (Field.mk "" "" none []) =
                    cur.getD j d := by
                  rw [List.getD_eq_getElem _ _ hj, List.getD_eq_getElem _ _ hj]
                have hget : ((cur.set j (Field.mk
                    (cur.getD j (Field.mk "" "" none [])).name
                    (cur.getD j (Field.mk "" "" none [])).type
                    (cur.getD j (Field.mk "" "" none [])).mode
                    (q.1 ++ q.2))).getD j d) = Field.mk
                    (cur.getD j (Field.mk "" "" none [])).name
                    (cur.getD j (Field.mk "" "" none [])).type
                    (cur.getD j (Field.mk "" "" none [])).mode
                    (q.1 ++ q.2) := by
                  rw [List.getD_eq_getElem _ _ (by simpa using hj)]
                  simp
                rw [hget] at hn ht hm
                exact ⟨hn.trans (by rw [← hdd]; simp [Field.name]),
                  ht.trans (by rw [← hdd]; simp [Field.type]),
                  hm.trans (by rw [← hdd]; simp [Field.mode])⟩
              · have hget : ((cur.set i (Field.mk
                    (cur.getD i (Field.mk "" "" none [])).name
                    (cur.getD i (Field.mk "" "" none [])).type
                    (cur.getD i (Field.mk "" "" none [])).mode
                    (q.1 ++ q.2))).getD j d) = cur.getD j d := by
                  rw [List.getD_eq_getElem _ _ (by simpa using hj),
                    List.getD_eq_getElem _ _ hj]
                  rw [List.getElem_set_ne (by omega)]
                rw [hget] at hn ht hm
                exact ⟨hn, ht, hm⟩
        · rw [if_neg htp] at h
          exact ih orig rest cur app p h
      · rw [if_neg hnm] at h
        obtain ⟨hl, hntm, ⟨ext, hext⟩⟩ := ih orig rest cur _ p h
        exact ⟨hl, hntm, ⟨[Field.mk nm tp md sub] ++ ext, by simp [hext]⟩⟩

theorem names_append (a b : List Field) :
    names (a ++ b) = names a ++ names b := by
  simp [names]

/-- Reassigning the `fields` entry of a dict (keeping its name) does not
change the name list. -/
theorem names_set_name (cur : List Field) :
    ∀ (i : Nat) (d : Field) (t : String) (m : Option String)
      (fs : List Field), i < cur.length →
      names (cur.set i (Field.mk (cur.getD i d).name t m fs)) = names cur := by
  induction cur with
  | nil => intro i d t m fs h; simp at h
  | cons x rest ih =>
    intro i d t m fs h
    cases i with
    | zero => simp [names, Field.name]
    | succ j =>
      simp only [List.getD_cons_succ, List.set_cons_succ, names,
        List.map_cons, List.cons.injEq, true_and]
      exact ih j d t m fs (by simpa using h)

/-- Two schemas whose entries agree pointwise in name have the same name
list. -/
theorem names_eq_of_top (p1 cur : List Field) (hl : p1.length = cur.length)
    (hn : ∀ i d, i < cur.length →
      (p1.getD i d).name = (cur.getD i d).name ∧
      (p1.getD i d).type = (cur.getD i d).type ∧
      (p1.getD i d).mode = (cur.getD i d).mode) :
    names p1 = names cur := by
  apply List.ext_getElem
  · simp [names, hl]
  · intro i h1 h2
    simp only [names, List.getElem_map]
    have h1' : i < p1.length := by simpa [names] using h1
    have h2' : i < cur.length := by simpa [names] using h2
    have h3 := (hn i (Field.mk "" "" none []) h2').1
    rwa [List.getD_eq_getElem _ _ h1', List.getD_eq_getElem _ _ h2'] at h3

/-- Every pending field of a returning dataflow merge run either has its
name in the (name-invariant) working list or was appended verbatim. -/
theorem mergeDfAux_pending_names :
    ∀ (fuel : Nat) (orig : List String) (pending cur app : List Field)
      (p : List Field × List Field),
      (∀ nm, nm ∈ orig → nm ∈ names cur) →
      mergeDfAux fuel orig pending cur app = some p →
      ∀ f ∈ pending, f.name ∈ names p.1 ∨ f ∈ p.2 := by
  intro fuel
  induction fuel with
  | zero => intro orig pending cur app p _ h; simp [mergeDfAux] at h
  | succ fuel ih =>
    intro orig pending cur app p hinv h
    match pending with
    | [] => intro f hf; simp at hf
    | Field.mk nm tp md sub :: rest =>
      rw [mergeDfAux] at h
      by_cases hnm : nm ∈ orig
      · rw [if_pos hnm] at h
        by_cases htp : tp = "RECORD"
        · rw [if_pos htp] at h
          rcases hidx : lastIdxNamed nm cur with _ | i
          · simp only [hidx] at h
            intro f hf
            rcases List.mem_cons.mp hf with rfl | hf'
            · left
              obtain ⟨hl, hntm, _⟩ := mergeDfAux_top fuel orig rest cur app p h
              rw [names_eq_of_top _ _ hl hntm]
              simpa [Field.name] using hinv nm hnm
            · exact ih orig rest cur app p hinv h f hf'
          · simp only [hidx] at h
            have hilt : i < cur.length := lastIdxNamed_lt hidx
            rcases hq : mergeDfAux fuel (names sub)
                (cur.getD i (Field.mk "" "" none [])).fields sub [] with _ | q
            · rw [hq] at h
              exact absurd h (by simp)
            · rw [hq] at h
              have hcn := names_set_name cur i (Field.mk "" "" none [])
                (cur.getD i (Field.mk "" "" none [])).type
                (cur.getD i (Field.mk "" "" none [])).mode
                (q.1 ++ q.2) hilt
              intro f hf
              rcases List.mem_cons.mp hf with rfl | hf'
              · left
                obtain ⟨hl, hntm, _⟩ :=
                  mergeDfAux_top fuel orig rest _ app p h
                rw [names_eq_of_top _ _ hl hntm, hcn]
                simpa [Field.name] using hinv nm hnm
              · exact ih orig rest _ app p
                  (fun nm' h' => hcn.symm ▸ hinv nm' h') h f hf'
        · rw [if_neg htp] at h
          intro f hf
          rcases List.mem_cons.mp hf with rfl | hf'
          · left
            obtain ⟨hl, hntm, _⟩ := mergeDfAux_top fuel orig rest cur app p h
            rw [names_eq_of_top _ _ hl hntm]
            simpa [Field.name] using hinv nm hnm
          · exact ih orig rest cur app p hinv h f hf'
      · rw [if_neg hnm] at h
        intro f hf
        rcases List.mem_cons.mp hf with rfl | hf'
        · right
          obtain ⟨_, _, ⟨ext, hext⟩⟩ := mergeDfAux_top fuel orig rest cur _ p h
          rw [hext]
          simp
        · exact ih orig rest cur _ p hinv h f hf'

/-- **C2**.  Algebra of `_merge_schemas`, in the scope in which it holds.
For `update_schema.py`'s `_merge_schemas(logs, streaming)` the claim is
fully true: self-merge is the identity on schemas with unique names per
level; the streaming input is extended additively (`Additive`: every
streaming field keeps its position, name, type and mode at every depth,
new fields are only appended), so no streaming field is removed or
retyped; and every name of either input is present in the result,
recursively through RECORD subfields (`NamesIn`).  For the dataflow
revision (whose recursive call swaps the copied and the iterated side at
every nesting level) the provable part is: self-merge is the identity, and
at the *top* level the working list keeps length, names, types and modes
pointwise and every top-level name of either input reaches the result.
Its nested behaviour violates the claim — see the counterexample. -/
theorem c2_schema_merge_algebra (S logs streaming : List Field)
    (fuel fuel2 : Nat) (r : List Field) (p : List Field × List Field)
    (hnd : nodupNames S = true)
    (hdf : mergeSchemasDf fuel S S = some r)
    (hp : mergeDfAux fuel2 (names streaming) logs streaming [] = some p) :
    mergeSchemas S S = S ∧
    r = S ∧
    Additive streaming (mergeSchemas logs streaming) ∧
    NamesIn logs (mergeSchemas logs streaming) ∧
    NamesIn streaming (mergeSchemas logs streaming) ∧
    p.1.length = streaming.length ∧
    (∀ i d, i < streaming.length →
      (p.1.getD i d).name = (streaming.getD i d).name ∧
      (p.1.getD i d).type = (streaming.getD i d).type ∧
      (p.1.getD i d).mode = (streaming.getD i d).mode) ∧
    (∀ nm, nm ∈ names streaming → nm ∈ names (p.1 ++ p.2)) ∧
    (∀ f, f ∈ logs → f.name ∈ names (p.1 ++ p.2)) := by
  obtain ⟨hl, hntm, _⟩ :=
    mergeDfAux_top fuel2 (names streaming) logs streaming [] p hp
  have hpn := mergeDfAux_pending_names fuel2 (names streaming) logs
    streaming [] p (fun _ h => h) hp
  refine ⟨mergeSchemas_idem S hnd, mergeSchemasDf_idem fuel S hnd r hdf,
    mergeSchemas_additive logs streaming,
    mergeSchemas_namesIn_logs logs streaming,
    mergeSchemas_namesIn_streaming logs streaming,
    hl, hntm, ?_, ?_⟩
  · intro nm hnm
    have h1 : nm ∈ names p.1 := by
      rw [names_eq_of_top _ _ hl hntm]
      exact hnm
    rw [names_append]
    exact List.mem_append_left _ h1
  · intro f hf
    rw [names_append]
    rcases hpn f hf with h1 | h2
    · exact List.mem_append_left _ h1
    · exact List.mem_append_right _ (List.mem_map_of_mem Field.name h2)

/-- **C2** (counterexample).  The dataflow revision's argument swap makes
the claim false for nested fields: merging streaming schema
`[a : RECORD [x : STRING]]` with incoming schema
`[a : RECORD [x : INTEGER]]` returns `[a : RECORD [x : INTEGER]]` — the
nested call copies the *incoming* subfield list and only walks the old
streaming subfields, so for a shared nested name the incoming dict wins
and the streaming field `a.x` has its type changed from STRING to INTEGER
(equivalently, the STRING field is removed).  `update_schema.py`'s
original, whose recursive call keeps the streaming side as the copied
one, preserves it. -/
theorem c2_counterexample :
    mergeSchemasDf 9
      [Field.mk "a" "RECORD" none [Field.mk "x" "STRING" none []]]
      [Field.mk "a" "RECORD" none [Field.mk "x" "INTEGER" none []]] =
    some [Field.mk "a" "RECORD" none [Field.mk "x" "INTEGER" none []]] ∧
    mergeSchemas
      [Field.mk "a" "RECORD" none [Field.mk "x" "INTEGER" none []]]
      [Field.mk "a" "RECORD" none [Field.mk "x" "STRING" none []]] =
    [Field.mk "a" "RECORD" none [Field.mk "x" "STRING" none []]] :=
  ⟨rfl, rfl⟩

/-- Closed instance of `c2_schema_merge_algebra`: its hypotheses hold at
the schema `[a : RECORD [x : STRING]]`, fuels 5 and 3, and the merge of
`logs = [b : INTEGER]` into `streaming = [a : STRING]`. -/
theorem c2_schema_merge_algebra_witness :
    nodupNames [Field.mk "a" "RECORD" none [Field.mk "x" "STRING" none []]]
        = true ∧
    mergeSchemasDf 5
        [Field.mk "a" "RECORD" none [Field.mk "x" "STRING" none []]]
        [Field.mk "a" "RECORD" none [Field.mk "x" "STRING" none []]] =
      some [Field.mk "a" "RECORD" none [Field.mk "x" "STRING" none []]] ∧
    mergeDfAux 3 (names [Field.mk "a" "STRING" none []])
        [Field.mk "b" "INTEGER" none []] [Field.mk "a" "STRING" none []] [] =
      some ([Field.mk "a" "STRING" none []],
        [Field.mk "b" "INTEGER" none []]) ∧
    mergeSchemas
        [Field.mk "a" "RECORD" none [Field.mk "x" "STRING" none []]]
        [Field.mk "a" "RECORD" none [Field.mk "x" "STRING" none []]] =
      [Field.mk "a" "RECORD" none [Field.mk "x" "STRING" none []]] :=
  ⟨by decide, by decide, by decide,
   (c2_schema_merge_algebra
     [Field.mk "a" "RECORD" none [Field.mk "x" "STRING" none []]]
     [Field.mk "b" "INTEGER" none []]
     [Field.mk "a" "STRING" none []]
     5 3
     [Field.mk "a" "RECORD" none [Field.mk "x" "STRING" none []]]
     ([Field.mk "a" "STRING" none []], [Field.mk "b" "INTEGER" none []])
     (by decide) (by decide) (by decide)).1⟩

/-- **C10**.  `_merge_schemas` copies only the top-level list of its
streaming/target argument (the second argument in `update_schema.py`, the
first in the dataflow revision); the field dicts are shared, and for each
name present in both inputs with an incoming RECORD type the shared
dict's `fields` entry is reassigned in place.  Hence the merge's return
value is exactly the caller's (mutated) original dicts followed by the
appended new top-level fields; when every incoming top-level name already
exists — all additions nested record subfields — the caller's original
schema list already equals the merged value, and in
`merge_and_update_schema` the post-merge comparison
`new_schema == orig_schema` evaluates equal, so no schema update is
issued. -/
theorem c10_inplace_subfield_merge :
    (∀ logs streaming : List Field,
      (∀ f ∈ logs, f.name ∈ names streaming) →
      mergeSchemas logs streaming =
        (mergeAux logs (names streaming) streaming []).1) ∧
    (∀ fuel orig mw p, (∀ g ∈ mw, g.name ∈ names orig) →
      mergeDfAux fuel (names orig) mw orig [] = some p →
      p.2 = [] ∧
      mergeSchemasDf fuel orig mw = some p.1 ∧
      mergeSchemasDfCaller fuel orig mw = some p.1 ∧
      ∀ dry, mergeAndUpdateSchema fuel orig mw dry =
        some (false, deleteMode p.1, deleteMode p.1)) := by
  constructor
  · intro logs streaming h
    have h2 := mergeAux_snd_of_names logs (names streaming) h streaming []
    simp [mergeSchemas, h2]
  · intro fuel orig mw p h heq
    have h2 : p.2 = [] :=
      mergeDfAux_snd_of_names fuel (names orig) mw orig [] p h heq
    refine ⟨h2, ?_, ?_, ?_⟩
    · simp [mergeSchemasDf, heq, h2]
    · simp [mergeSchemasDfCaller, heq]
    · intro dry
      simp [mergeAndUpdateSchema, heq, h2, Field.beqList_refl]

/-- **C10** (witness): the dataflow merge of `[a:RECORD[x]]` with
`[a:RECORD[x,y]]`, whose only addition is the nested `a.y`. -/
theorem c10_witness :
    (∀ g ∈ [Field.mk "a" "RECORD" none
        [Field.mk "x" "STRING" none [], Field.mk "y" "STRING" none []]],
      Field.name g ∈
        names [Field.mk "a" "RECORD" none [Field.mk "x" "STRING" none []]]) ∧
    mergeDfAux 99
        (names [Field.mk "a" "RECORD" none [Field.mk "x" "STRING" none []]])
        [Field.mk "a" "RECORD" none
          [Field.mk "x" "STRING" none [], Field.mk "y" "STRING" none []]]
        [Field.mk "a" "RECORD" none [Field.mk "x" "STRING" none []]] [] =
      some ([Field.mk "a" "RECORD" none
        [Field.mk "x" "STRING" none [], Field.mk "y" "STRING" none []]], []) ∧
    mergeAndUpdateSchema 99
        [Field.mk "a" "RECORD" none [Field.mk "x" "STRING" none []]]
        [Field.mk "a" "RECORD" none
          [Field.mk "x" "STRING" none [], Field.mk "y" "STRING" none []]]
        false =
      some (false,
        deleteMode [Field.mk "a" "RECORD" none
          [Field.mk "x" "STRING" none [], Field.mk "y" "STRING" none []]],
        deleteMode [Field.mk "a" "RECORD" none
          [Field.mk "x" "STRING" none [], Field.mk "y" "STRING" none []]]) :=
  ⟨by decide, rfl,
    ((c10_inplace_subfield_merge.2 99
      [Field.mk "a" "RECORD" none [Field.mk "x" "STRING" none []]]
      [Field.mk "a" "RECORD" none
        [Field.mk "x" "STRING" none [], Field.mk "y" "STRING" none []]]
      ([Field.mk "a" "RECORD" none
        [Field.mk "x" "STRING" none [], Field.mk "y" "STRING" none []]], [])
      (by decide) rfl).2.2.2 false)⟩

def oracleNestedSchema : BuildOracles :=
  { oracleReady with
    hourlySchema := [Field.mk "a" "RECORD" none
      [Field.mk "x" "STRING" none [], Field.mk "y" "STRING" none []]],
    dailySchema := [Field.mk "a" "RECORD" none
      [Field.mk "x" "STRING" none []]] }

/-- **C3** (code evidence for the divergence).  The hourly table carries
the nested column `a.y` which the daily table lacks; nevertheless the
schema merge decides *not* to call the warehouse schema update (the
in-place mutation makes `new_schema == orig_schema` compare equal), and
the build then issues the copy-append anyway — the append is left to
fail at the warehouse for lack of the column, against the claim (and the
comment at `create_timestamped_tables.py` 523-526) that the daily schema
is always updated before the `cp`. -/
theorem c3_nested_addition_breaks_append :
    mergeAndUpdateSchema 99
        [Field.mk "a" "RECORD" none [Field.mk "x" "STRING" none []]]
        [Field.mk "a" "RECORD" none
          [Field.mk "x" "STRING" none [], Field.mk "y" "STRING" none []]]
        false =
      some (false,
        [Field.mk "a" "RECORD" none
          [Field.mk "x" "STRING" none [], Field.mk "y" "STRING" none []]],
        [Field.mk "a" "RECORD" none
          [Field.mk "x" "STRING" none [], Field.mk "y" "STRING" none []]]) ∧
    "y" ∈ names (Field.fields (Field.mk "a" "RECORD" none
      [Field.mk "x" "STRING" none [], Field.mk "y" "STRING" none []])) ∧
    "y" ∉ names (Field.fields (Field.mk "a" "RECORD" none
      [Field.mk "x" "STRING" none []])) ∧
    (createHourlyTable oracleNestedSchema 0 false false false).map
      (fun pr => (pr.1.contains (.updateSchemaOp (dailyTableName 0)),
        pr.1.contains (.copyAppend (hourlyTableName 0) (dailyTableName 0)),
        pr.2)) = some (false, true, .ok) := by
  refine ⟨rfl, by decide, by decide, ?_⟩
  have hrun : createHourlyTable oracleNestedSchema 0 false false false =
      some ([.showTable "logs_streaming.logs_all_time",
             .readQuery "logs_are_up_to_date",
             .showTable "logs_new.requestlogs_hour_0",
             .mkTable "logs_new.subquery_0",
             .queryDest "logs_new.subquery_0" false false,
             .queryDest "logs_new.requestlogs_hour_0" false false,
             .queryDest "logs_new.requestlogs_hour_0" true false,
             .readQuery "hourly_logs_seem_complete",
             .showTable "logs_new.requestlogs_hour_0",
             .showTable "logs_new.requestlogs_day_0",
             .copyAppend "logs_new.requestlogs_hour_0"
               "logs_new.requestlogs_day_0"], .ok) := by
    norm_num [createHourlyTable, oracleNestedSchema, oracleReady,
      oracleNeverReady, tableDecoratorEndTime, waiterPhase1, waiterPhase2,
      hourlyLogsSeemComplete, dipScan]
    decide
  rw [hrun]
  decide

/-! ## Claim theorems -/

/-- **C7** (code evidence for the divergence).  `main` passes its flags
positionally into `_create_hourly_table(start_time,
search_harder_for_loglines, interactive, dry_run)`, so the first attempt
runs with `search_harder_for_loglines = interactive` and `interactive =
dry_run`, and `dry_run` stuck at `False`.  Consequently: (1) under `-i`
the *first* attempt already uses the widened source-search range — with a
source that never reports ready (so the waiter-bounded range cannot
succeed, witness conjunct 2) the window still builds and publishes
without a single readiness poll; (3) under `-n` the first attempt
performs mutating warehouse calls; (4) a validation failure is retried
exactly once (two builds) and the second failure is fatal for the window
(the table is removed).  The claim that the first attempt always uses
the waiter-bounded range is contradicted by (1). -/
theorem c7_first_attempt_flag_shift :
    processWindow oracleNeverReady oracleNeverReady 0 true false =
      some [.showTable "logs_streaming.logs_all_time",
            .showTable "logs_new.requestlogs_hour_0",
            .mkTable "logs_new.subquery_0",
            .queryDest "logs_new.subquery_0" false false,
            .queryDest "logs_new.requestlogs_hour_0" false false,
            .queryDest "logs_new.requestlogs_hour_0" true false,
            .readQuery "hourly_logs_seem_complete",
            .showTable "logs_new.requestlogs_hour_0",
            .showTable "logs_new.requestlogs_day_0",
            .copyAppend "logs_new.requestlogs_hour_0"
              "logs_new.requestlogs_day_0"] ∧
    (createHourlyTable oracleNeverReady 0 false false false).map Prod.snd =
      some .sourceNeverCaughtUp ∧
    (processWindow oracleReady oracleReady 0 false true).map
      (fun tr => tr.any BqOp.mutating) = some true ∧
    (processWindow oracleBadBuckets oracleBadBuckets 0 false false).map
      (fun tr => (tr.count (.mkTable "logs_new.subquery_0"),
        tr.getLast? = some (.rmTable "logs_new.requestlogs_hour_0"))) =
      some (2, True) := by
  refine ⟨?_, ?_, ?_, ?_⟩
  · norm_num [processWindow, createHourlyTable, oracleNeverReady,
      hourlyLogsSeemComplete, dipScan, mergeAndUpdateSchema, mergeDfAux,
      names, deleteMode, Field.beqList, hourlyTableName, dailyTableName,
      subTableName]
    decide
  · norm_num [createHourlyTable, oracleNeverReady, tableDecoratorEndTime,
      waiterPhase1, waiterPhase2]
  · norm_num [processWindow, createHourlyTable, oracleReady,
      oracleNeverReady, tableDecoratorEndTime, waiterPhase1, waiterPhase2,
      hourlyLogsSeemComplete, dipScan, mergeAndUpdateSchema, mergeDfAux,
      names, deleteMode, Field.beqList, hourlyTableName, dailyTableName,
      subTableName, BqOp.mutating]
  · norm_num [processWindow, createHourlyTable, oracleBadBuckets,
      oracleReady, oracleNeverReady, tableDecoratorEndTime, waiterPhase1,
      waiterPhase2, hourlyLogsSeemComplete, dipScan, hourlyTableName,
      dailyTableName, subTableName, List.count]
    decide

/-- window start 0, clock at time_t 22000 (the window start is over six
hours in the past), source ready at once, dip in the bucket counts -/
def oracleOldWindowDip : BuildOracles :=
  { oracleBadBuckets with now := fun _ => 22000, timeNow := 22000 }

/-- Ready source, table already exists. -/
def oracleExistsReady : BuildOracles :=
  { oracleReady with tableExists := true }

/-- Never-ready source, table already exists. -/
def oracleExistsNeverReady : BuildOracles :=
  { oracleNeverReady with tableExists := true }

/-- Ready source, completeness query returns no buckets. -/
def oracleEmptyBuckets : BuildOracles :=
  { oracleReady with buckets := [] }

/-- **C9** (counterexample).  A window whose start lies more than five
hours in the past (start 0, current time_t 22000 ≈ 6.1 h) is *not*
exempt from validation: the freshly built table is checked, the dip in
the bucket counts is detected, the table is deleted and
`HourlyTableIncomplete` is raised — against the claim that such a window
skips the dip check and is accepted.  There is no age test anywhere in
`_create_hourly_table` or `_hourly_logs_seem_complete`. -/
theorem c9_counterexample :
    createHourlyTable oracleOldWindowDip 0 false false false =
      some ([.showTable "logs_streaming.logs_all_time",
             .readQuery "logs_are_up_to_date",
             .showTable "logs_new.requestlogs_hour_0",
             .mkTable "logs_new.subquery_0",
             .queryDest "logs_new.subquery_0" false false,
             .queryDest "logs_new.requestlogs_hour_0" false false,
             .queryDest "logs_new.requestlogs_hour_0" true false,
             .readQuery "hourly_logs_seem_complete",
             .rmTable "logs_new.requestlogs_hour_0"], .incomplete) := by
  norm_num [createHourlyTable, oracleOldWindowDip, oracleBadBuckets,
    oracleReady, oracleNeverReady, tableDecoratorEndTime, waiterPhase1,
    waiterPhase2, hourlyLogsSeemComplete, dipScan]
  decide

/-- **C9** (amended).  The completeness validation is never skipped:
whatever the window's start time — its age never enters the logic — every
build that reaches the freshly created table (the table did not already
exist, and the consistency wait returned) runs the dip check, and the
build succeeds exactly when the check passes. -/
theorem c9_validation_never_age_skipped :
    ∀ (o : BuildOracles) (t : Int) (sh i d : Bool) (tr : List BqOp)
      (out : BuildOutcome),
      o.tableExists = false →
      createHourlyTable o t sh i d = some (tr, out) →
      out ≠ .sourceNeverCaughtUp →
      (.readQuery "hourly_logs_seem_complete") ∈ tr ∧
      (out = .ok ↔ hourlyLogsSeemComplete o.buckets = true) := by
  intro o t sh i d tr out hex heq hno
  simp only [createHourlyTable] at heq
  split at heq
  · simp at heq
  · simp only [Option.some.injEq, Prod.mk.injEq] at heq
    exact absurd heq.2.symm hno
  · rw [hex] at heq
    simp only [Bool.false_eq_true, if_false] at heq
    split at heq
    · rename_i hbad
      simp only [Option.some.injEq, Prod.mk.injEq] at heq
      obtain ⟨htr, hout⟩ := heq
      subst htr hout
      refine ⟨by simp, ?_⟩
      simp only [Bool.not_eq_true'] at hbad
      simp [hbad]
    · rename_i hgood
      simp only [Bool.not_eq_true', Bool.not_eq_false] at hgood
      split at heq
      · simp at heq
      · simp only [Option.some.injEq, Prod.mk.injEq] at heq
        obtain ⟨htr, hout⟩ := heq
        subst htr hout
        refine ⟨by simp, ?_⟩
        simp [hgood]

/-- **C9** (witness for the amended theorem): a concrete build of window
0 against a ready source with an empty bucket listing, on which every
hypothesis is discharged. -/
theorem c9_validation_never_age_skipped_witness :
    oracleEmptyBuckets.tableExists = false ∧
    (BuildOutcome.ok ≠ .sourceNeverCaughtUp) ∧
    createHourlyTable oracleEmptyBuckets 0 false false false =
      some ([.showTable "logs_streaming.logs_all_time",
             .readQuery "logs_are_up_to_date",
             .showTable "logs_new.requestlogs_hour_0",
             .mkTable "logs_new.subquery_0",
             .queryDest "logs_new.subquery_0" false false,
             .queryDest "logs_new.requestlogs_hour_0" false false,
             .queryDest "logs_new.requestlogs_hour_0" true false,
             .readQuery "hourly_logs_seem_complete",
             .showTable "logs_new.requestlogs_hour_0",
             .showTable "logs_new.requestlogs_day_0",
             .copyAppend "logs_new.requestlogs_hour_0"
               "logs_new.requestlogs_day_0"], .ok) ∧
    (.readQuery "hourly_logs_seem_complete") ∈
      ([.showTable "logs_streaming.logs_all_time",
        .readQuery "logs_are_up_to_date",
        .showTable "logs_new.requestlogs_hour_0",
        .mkTable "logs_new.subquery_0",
        .queryDest "logs_new.subquery_0" false false,
        .queryDest "logs_new.requestlogs_hour_0" false false,
        .queryDest "logs_new.requestlogs_hour_0" true false,
        .readQuery "hourly_logs_seem_complete",
        .showTable "logs_new.requestlogs_hour_0",
        .showTable "logs_new.requestlogs_day_0",
        .copyAppend "logs_new.requestlogs_hour_0"
          "logs_new.requestlogs_day_0"] : List BqOp) :=
  ⟨rfl, by decide, rfl,
    (c9_validation_never_age_skipped oracleEmptyBuckets 0 false false false
      _ .ok rfl rfl (by decide)).1⟩

/-- **C8** (counterexample).  The existence short-circuit sits *after*
the consistency wait in `_create_hourly_table`: with the hourly table
already existing but a source that never reports ready, the build raises
`RuntimeError` after ten backoff polls instead of short-circuiting to
done without error. -/
theorem c8_counterexample :
    oracleExistsNeverReady.tableExists = true ∧
    createHourlyTable oracleExistsNeverReady 0 false false false =
      some (.showTable "logs_streaming.logs_all_time" ::
        List.replicate 10 (.readQuery "logs_are_up_to_date"),
        .sourceNeverCaughtUp) := by
  constructor
  · rfl
  · norm_num [createHourlyTable, oracleExistsNeverReady, oracleNeverReady,
      tableDecoratorEndTime, waiterPhase1, waiterPhase2]

/-- **C8** (amended).  (1) Whenever the consistency wait returns (or the
widened-range mode is in use, in which case there is no wait), a build of
a window whose hourly table already exists returns normally and its whole
trace is free of mutating warehouse calls — only schema/existence reads
and readiness polls.  (2) A full rerun over a window set with nothing
missing performs no build at all: the run's trace is the single
`bq ls` listing read, unconditionally. -/
theorem c8_existing_table_is_noop :
    (∀ (o : BuildOracles) (t : Int) (sh i d : Bool) (tr : List BqOp)
      (out : BuildOutcome),
      o.tableExists = true →
      createHourlyTable o t sh i d = some (tr, out) →
      out ≠ .sourceNeverCaughtUp →
      out = .ok ∧ tr.all (fun op => !op.mutating) = true) ∧
    (∀ (nowH : Int) (listing : Option (List Int))
      (oracles : Int → BuildOracles × BuildOracles) (i d : Bool),
      timesOfMissingTables nowH nowH listing = some [] →
      mainModel nowH listing oracles i d = some [.lsTables] ∧
      (BqOp.lsTables).mutating = false) := by
  constructor
  · intro o t sh i d tr out hex heq hno
    simp only [createHourlyTable] at heq
    split at heq
    · simp at heq
    · simp only [Option.some.injEq, Prod.mk.injEq] at heq
      exact absurd heq.2.symm hno
    · rw [hex] at heq
      simp only [if_true] at heq
      simp only [Option.some.injEq, Prod.mk.injEq] at heq
      obtain ⟨htr, hout⟩ := heq
      subst htr hout
      refine ⟨rfl, ?_⟩
      simp [List.all_eq_true, List.mem_replicate, List.mem_append,
        BqOp.mutating]
  · intro nowH listing oracles i d hmiss
    refine ⟨?_, rfl⟩
    simp [mainModel, hmiss, List.mapM, List.mapM.loop]

/-- **C8** (witness): a build of an already-existing window against a
ready source, and a planner run over a gap-free table set, discharging
all hypotheses concretely. -/
theorem c8_existing_table_is_noop_witness :
    oracleExistsReady.tableExists = true ∧
    (BuildOutcome.ok ≠ .sourceNeverCaughtUp) ∧
    createHourlyTable oracleExistsReady 0 false false false =
      some ([.showTable "logs_streaming.logs_all_time",
             .readQuery "logs_are_up_to_date",
             .showTable "logs_new.requestlogs_hour_0"], .ok) ∧
    timesOfMissingTables 473383 473383
      (some [473377, 473378, 473379, 473380, 473381, 473382]) = some [] ∧
    ([.showTable "logs_streaming.logs_all_time",
      .readQuery "logs_are_up_to_date",
      .showTable "logs_new.requestlogs_hour_0"] : List BqOp).all
        (fun op => !op.mutating) = true ∧
    mainModel 473383 (some [473377, 473378, 473379, 473380, 473381, 473382])
      (fun _ => (oracleExistsReady, oracleExistsReady)) false false =
      some [.lsTables] :=
  ⟨rfl, by decide, rfl, by decide,
    ((c8_existing_table_is_noop.1 oracleExistsReady 0 false false false
      _ .ok rfl rfl (by decide)).2),
    (c8_existing_table_is_noop.2 473383
      (some [473377, 473378, 473379, 473380, 473381, 473382])
      (fun _ => (oracleExistsReady, oracleExistsReady)) false false
      (by decide)).1⟩

section Waiter
variable (now : Nat → Int) (ready : Nat → Int → Bool)

theorem waiterPhase2_success :
    ∀ (m rem i ni ri : Nat) (sleeps : List ℚ) (polls : Nat), m < rem →
    (∀ j < m, ready (ri + j) (now (ni + j) * 1000) = false) →
    ready (ri + m) (now (ni + m) * 1000) = true →
    waiterPhase2 now ready rem i ni ri sleeps polls =
      .ok (now (ni + m) * 1000)
        (sleeps ++ (List.range m).map fun j => 60 * (3 / 2 : ℚ) ^ (i + j))
        (polls + (m + 1)) := by
  intro m
  induction m with
  | zero =>
    intro rem i ni ri sleeps polls hrem _ hready
    match rem, hrem with
    | rem + 1, _ =>
      rw [waiterPhase2]
      simp only [Nat.add_zero] at hready
      simp [hready]
  | succ m ih =>
    intro rem i ni ri sleeps polls hrem hfail hready
    match rem, hrem with
    | rem + 1, hrem =>
      rw [waiterPhase2]
      have h0 : ready ri (now ni * 1000) = false := by
        simpa using hfail 0 (Nat.succ_pos m)
      simp only [h0, Bool.false_eq_true, if_false]
      have hrec := ih rem (i + 1) (ni + 1) (ri + 1)
        (sleeps ++ [60 * (3 / 2 : ℚ) ^ i]) (polls + 1)
        (Nat.lt_of_succ_lt_succ hrem)
        (fun j hj => by
          simpa [Nat.add_comm, Nat.add_left_comm, Nat.add_assoc]
            using hfail (j + 1) (Nat.succ_lt_succ hj))
        (by simpa [Nat.add_comm, Nat.add_left_comm, Nat.add_assoc]
          using hready)
      rw [hrec]
      rw [show ni + 1 + m = ni + (m + 1) by omega,
          show polls + 1 + (m + 1) = polls + (m + 1 + 1) by omega]
      simp only [List.append_assoc, List.singleton_append,
        List.range_succ_eq_map, List.map_cons, List.map_map, Nat.add_zero,
        Function.comp_def,
        show ∀ a : Nat, i + 1 + a = i + (a + 1) from fun a => by omega]

theorem waiterPhase2_exhaust :
    ∀ (rem i ni ri : Nat) (sleeps : List ℚ) (polls : Nat),
    (∀ j < rem, ready (ri + j) (now (ni + j) * 1000) = false) →
    waiterPhase2 now ready rem i ni ri sleeps polls =
      .fatal (sleeps ++ (List.range rem).map fun j => 60 * (3 / 2 : ℚ) ^ (i + j))
        (polls + rem) := by
  intro rem
  induction rem with
  | zero => intro i ni ri sleeps polls _; simp [waiterPhase2]
  | succ rem ih =>
    intro i ni ri sleeps polls hfail
    rw [waiterPhase2]
    have h0 : ready ri (now ni * 1000) = false := by
      simpa using hfail 0 (Nat.succ_pos rem)
    simp only [h0, Bool.false_eq_true, if_false]
    have hrec := ih (i + 1) (ni + 1) (ri + 1)
      (sleeps ++ [60 * (3 / 2 : ℚ) ^ i]) (polls + 1)
      (fun j hj => by
        simpa [Nat.add_comm, Nat.add_left_comm, Nat.add_assoc]
          using hfail (j + 1) (Nat.succ_lt_succ hj))
    rw [hrec]
    rw [show polls + 1 + rem = polls + (rem + 1) by omega]
    simp only [List.append_assoc, List.singleton_append,
      List.range_succ_eq_map, List.map_cons, List.map_map, Nat.add_zero,
      Function.comp_def,
      show ∀ a : Nat, i + 1 + a = i + (a + 1) from fun a => by omega]

theorem waiterPhase1_success :
    ∀ (k fuel : Nat) (endMs : Int) (ni ri polls : Nat), k < fuel →
    (∀ j < k, endMs + (j : Int) * 300000 < now (ni + j) * 1000 ∧
      ready (ri + j) (endMs + (j : Int) * 300000) = false) →
    endMs + (k : Int) * 300000 < now (ni + k) * 1000 →
    ready (ri + k) (endMs + (k : Int) * 300000) = true →
    waiterPhase1 now ready fuel endMs ni ri polls =
      some (Sum.inl (endMs + (k : Int) * 300000, polls + k + 1)) := by
  intro k
  induction k with
  | zero =>
    intro fuel endMs ni ri polls hf _ hlt hready
    match fuel, hf with
    | fuel + 1, _ =>
      rw [waiterPhase1]
      simp only [Nat.add_zero] at hlt hready
      simp only [Int.natCast_zero, zero_mul, add_zero] at hlt hready ⊢
      simp [hlt, hready]
  | succ k ih =>
    intro fuel endMs ni ri polls hf hfail hlt hready
    match fuel, hf with
    | fuel + 1, hf =>
      rw [waiterPhase1]
      have h0 := hfail 0 (Nat.succ_pos k)
      simp only [Nat.add_zero, Int.natCast_zero, zero_mul, add_zero] at h0
      simp only [h0.1, if_true, h0.2, Bool.false_eq_true, if_false]
      have hrec := ih fuel (endMs + 5 * 60 * 1000) (ni + 1) (ri + 1)
        (polls + 1) (Nat.lt_of_succ_lt_succ hf)
        (fun j hj => by
          have := hfail (j + 1) (Nat.succ_lt_succ hj)
          constructor
          · have h1 := this.1
            rw [show ni + 1 + j = ni + (j + 1) by omega]
            calc endMs + 5 * 60 * 1000 + (j : Int) * 300000
                = endMs + ((j : Int) + 1) * 300000 := by ring
              _ < now (ni + (j + 1)) * 1000 := by
                  rw [show ((j : Int) + 1) = ((j + 1 : Nat) : Int) by
                    push_cast; ring]
                  exact h1
          · have h2 := this.2
            rw [show ri + 1 + j = ri + (j + 1) by omega]
            rw [show endMs + 5 * 60 * 1000 + (j : Int) * 300000
              = endMs + ((j + 1 : Nat) : Int) * 300000 by push_cast; ring]
            exact h2)
        (by
          rw [show ni + 1 + k = ni + (k + 1) by omega]
          rw [show endMs + 5 * 60 * 1000 + (k : Int) * 300000
            = endMs + ((k + 1 : Nat) : Int) * 300000 by push_cast; ring]
          exact hlt)
        (by
          rw [show ri + 1 + k = ri + (k + 1) by omega]
          rw [show endMs + 5 * 60 * 1000 + (k : Int) * 300000
            = endMs + ((k + 1 : Nat) : Int) * 300000 by push_cast; ring]
          exact hready)
      rw [hrec]
      rw [show endMs + 5 * 60 * 1000 + (k : Int) * 300000
          = endMs + ((k + 1 : Nat) : Int) * 300000 by push_cast; ring]
      rw [show polls + 1 + k + 1 = polls + (k + 1) + 1 by omega]
end Waiter

/-- **C5**.  The consistency waiter: (1) while the boundary is in the
past, the first try is `(T + 16min) * 1000` and each failed poll extends
it by 5 minutes, the k-th poll reading boundary `base + k*300000`;
(2) once the boundary reaches the present it re-polls with the boundary
set to `now`, and after `m < 10` consecutive not-ready polls followed by
a ready one it returns after exactly the sleeps `60 * 1.5^i` for
`i = 0 … m-1`; (3) those sleep durations are strictly increasing;
(4) ten not-ready polls exhaust the attempts and raise the fatal
`RuntimeError`; (5) concretely, a source not ready for exactly 3 polls
and then ready makes the waiter return after exactly the 3 sleeps
`[60, 90, 135]`. -/
theorem c5_consistency_waiter :
    (∀ (now : Nat → Int) (ready : Nat → Int → Bool) (fuel : Nat)
      (endTime : Int) (k : Nat), k < fuel →
      (∀ j < k, (endTime + 16 * 60) * 1000 + (j : Int) * 300000 <
          now j * 1000 ∧
        ready j ((endTime + 16 * 60) * 1000 + (j : Int) * 300000) = false) →
      (endTime + 16 * 60) * 1000 + (k : Int) * 300000 < now k * 1000 →
      ready k ((endTime + 16 * 60) * 1000 + (k : Int) * 300000) = true →
      tableDecoratorEndTime now ready fuel endTime =
        some (.ok ((endTime + 16 * 60) * 1000 + (k : Int) * 300000) []
          (k + 1))) ∧
    (∀ (now : Nat → Int) (ready : Nat → Int → Bool) (fuel : Nat)
      (endTime : Int) (m : Nat), 0 < fuel → m < 10 →
      ¬((endTime + 16 * 60) * 1000 < now 0 * 1000) →
      (∀ j < m, ready j (now (j + 1) * 1000) = false) →
      ready m (now (m + 1) * 1000) = true →
      tableDecoratorEndTime now ready fuel endTime =
        some (.ok (now (m + 1) * 1000)
          ((List.range m).map fun i => 60 * (3 / 2 : ℚ) ^ i) (m + 1))) ∧
    (∀ m : Nat,
      ((List.range m).map fun i => 60 * (3 / 2 : ℚ) ^ i).Pairwise (· < ·)) ∧
    (∀ (now : Nat → Int) (ready : Nat → Int → Bool) (fuel : Nat)
      (endTime : Int), 0 < fuel →
      ¬((endTime + 16 * 60) * 1000 < now 0 * 1000) →
      (∀ j < 10, ready j (now (j + 1) * 1000) = false) →
      tableDecoratorEndTime now ready fuel endTime =
        some (.fatal ((List.range 10).map fun i => 60 * (3 / 2 : ℚ) ^ i)
          10)) ∧
    tableDecoratorEndTime (fun _ => 1000) (fun k _ => decide (3 ≤ k))
        5 1000 =
      some (.ok 1000000 [60, 90, 135] 4) := by
  refine ⟨?_, ?_, ?_, ?_, ?_⟩
  · intro now ready fuel endTime k hk hfail hlt hready
    rw [tableDecoratorEndTime]
    rw [waiterPhase1_success now ready k fuel ((endTime + 16 * 60) * 1000)
      0 0 0 hk (fun j hj => by simpa using hfail j hj)
      (by simpa using hlt) (by simpa using hready)]
    simp
  · intro now ready fuel endTime m hfuel hm hnot hfail hready
    match fuel, hfuel with
    | fuel + 1, _ =>
      rw [tableDecoratorEndTime, waiterPhase1]
      simp only [hnot, if_false]
      rw [waiterPhase2_success now ready m 10 0 1 0 [] 0 hm
        (fun j hj => by simpa [Nat.add_comm] using hfail j hj)
        (by simpa [Nat.add_comm] using hready)]
      simp [Nat.add_comm]
  · intro m
    rw [List.pairwise_map]
    have h32 : (1 : ℚ) < 3 / 2 := by norm_num
    exact (List.pairwise_lt_range m).imp fun hab => by
      have hp := pow_lt_pow_right₀ h32 hab
      have h60 : (0 : ℚ) < 60 := by norm_num
      exact mul_lt_mul_of_pos_left hp h60
  · intro now ready fuel endTime hfuel hnot hfail
    match fuel, hfuel with
    | fuel + 1, _ =>
      rw [tableDecoratorEndTime, waiterPhase1]
      simp only [hnot, if_false]
      rw [waiterPhase2_exhaust now ready 10 0 1 0 [] 0
        (fun j hj => by simpa [Nat.add_comm] using hfail j hj)]
      simp
  · norm_num [tableDecoratorEndTime, waiterPhase1, waiterPhase2]

/-- **C5** (witness): concrete oracles discharging every hypothesis of
the three conditional parts. -/
theorem c5_consistency_waiter_witness :
    ((2 : Nat) < 5 ∧
     (∀ j : Nat, j < 2 →
       ((100 : Int) + 16 * 60) * 1000 + (j : Int) * 300000 <
         5000 * 1000 ∧ (decide (2 ≤ j) : Bool) = false) ∧
     ((100 : Int) + 16 * 60) * 1000 + ((2 : Nat) : Int) * 300000 <
       5000 * 1000 ∧
     (∀ j : Nat, j < 3 → (decide (3 ≤ j) : Bool) = false) ∧
     (∀ j : Nat, j < 10 → false = false)) ∧
    tableDecoratorEndTime (fun _ => 5000) (fun k _ => decide (2 ≤ k))
        5 100 =
      some (.ok (((100 : Int) + 16 * 60) * 1000 +
        ((2 : Nat) : Int) * 300000) [] 3) ∧
    tableDecoratorEndTime (fun _ => 1000) (fun k _ => decide (3 ≤ k))
        5 1000 =
      some (.ok ((1000 : Int) * 1000)
        ((List.range 3).map fun i => 60 * (3 / 2 : ℚ) ^ i) 4) ∧
    tableDecoratorEndTime (fun _ => 1000) (fun _ _ => false) 5 1000 =
      some (.fatal ((List.range 10).map fun i => 60 * (3 / 2 : ℚ) ^ i)
        10) :=
  ⟨⟨by decide, by decide, by decide, by decide, by decide⟩,
   c5_consistency_waiter.1 (fun _ => 5000) (fun k _ => decide (2 ≤ k))
     5 100 2 (by decide) (fun j hj => by
       refine ⟨?_, ?_⟩ <;> revert hj <;> revert j <;> decide)
     (by decide) (by decide),
   c5_consistency_waiter.2.1 (fun _ => 1000) (fun k _ => decide (3 ≤ k))
     5 1000 3 (by decide) (by decide) (by decide)
     (fun j hj => by revert hj; revert j; decide) (by decide),
   c5_consistency_waiter.2.2.2.1 (fun _ => 1000) (fun _ _ => false) 5 1000
     (by decide) (by decide) (fun j _ => rfl)⟩
theorem mem_hoursFrom (n : Nat) :
    ∀ s h : Int, h ∈ hoursFrom s n ↔ s ≤ h ∧ h < s + n := by
  induction n with
  | zero => intro s h; simp [hoursFrom]
  | succ n ih =>
    intro s h
    simp only [hoursFrom, List.mem_cons, ih (s + 1)]
    constructor
    · rintro (rfl | ⟨h1, h2⟩) <;> omega
    · rintro ⟨h1, h2⟩
      rcases eq_or_lt_of_le h1 with rfl | hlt
      · exact Or.inl rfl
      · right; omega

theorem pairwise_hoursFrom (n : Nat) :
    ∀ s : Int, (hoursFrom s n).Pairwise (· < ·) := by
  induction n with
  | zero => intro s; simp [hoursFrom]
  | succ n ih =>
    intro s
    rw [hoursFrom, List.pairwise_cons]
    refine ⟨fun x hx => ?_, ih (s + 1)⟩
    have := (mem_hoursFrom n (s + 1) x).mp hx
    omega

/-- **C6**.  The window planner returns the chronologically ordered
hour-aligned windows with no table, bounded below by 6 days (144 hours)
before the end time or by the earliest existing table (strictly after
it), whichever is later, never including any window at or after the end
time; with no tables at all the scan is bounded below by midnight of the
current UTC day.  Concretely, with tables for hours 473377–473382
(2024-01-02T01:00Z–06:00Z) except 473381 (05:00Z) and end time 473383
(07:00Z), it returns exactly `[473381]`. -/
theorem c6_window_planner :
    (∀ (nowH endH : Int) (tables : List Int) (earliest : Int)
      (l : List Int),
      tables.min? = some earliest →
      timesOfMissingTables nowH endH (some tables) = some l →
      (∀ h : Int, h ∈ l ↔
        (max (endH - 6 * 24) (earliest + 1) ≤ h ∧ h < endH ∧
         h ∉ tables)) ∧
      l.Pairwise (· < ·)) ∧
    (∀ (nowH endH : Int) (l : List Int),
      timesOfMissingTables nowH endH none = some l →
      (∀ h : Int, h ∈ l ↔ 24 * (nowH.fdiv 24) ≤ h ∧ h < endH) ∧
      l.Pairwise (· < ·)) ∧
    timesOfMissingTables 473383 473383
      (some [473377, 473378, 473379, 473380, 473382]) = some [473381] := by
  refine ⟨?_, ?_, by decide⟩
  · intro nowH endH tables earliest l hmin heq
    simp only [timesOfMissingTables, hmin, Option.some.injEq] at heq
    subst heq
    constructor
    · intro h
      simp [mem_hoursFrom, max_le_iff]
      constructor
      · rintro ⟨⟨h1, h2⟩, h3, h4⟩
        refine ⟨⟨by omega, by omega⟩, by omega, h3⟩
      · rintro ⟨⟨h1, h2⟩, h3, h4⟩
        refine ⟨⟨by omega, by omega⟩, h4, by omega⟩
    · exact (pairwise_hoursFrom _ _).filter _
  · intro nowH endH l heq
    simp only [timesOfMissingTables, Option.some.injEq] at heq
    subst heq
    refine ⟨fun h => ?_, pairwise_hoursFrom _ _⟩
    rw [mem_hoursFrom]
    omega

/-- **C6** (witness): the concrete gap scenario and a concrete empty
listing, discharging every hypothesis. -/
theorem c6_window_planner_witness :
    ([473377, 473378, 473379, 473380, 473382] : List Int).min? =
      some 473377 ∧
    timesOfMissingTables 473383 473383
      (some [473377, 473378, 473379, 473380, 473382]) = some [473381] ∧
    timesOfMissingTables 49 51 none = some [48, 49, 50] ∧
    ((∀ h : Int, h ∈ [(473381 : Int)] ↔
        (max (473383 - 6 * 24) (473377 + 1) ≤ h ∧ h < 473383 ∧
         h ∉ [(473377 : Int), 473378, 473379, 473380, 473382])) ∧
      ([(473381 : Int)]).Pairwise (· < ·)) ∧
    ((∀ h : Int, h ∈ [(48 : Int), 49, 50] ↔
        24 * ((49 : Int).fdiv 24) ≤ h ∧ h < 51) ∧
      ([(48 : Int), 49, 50]).Pairwise (· < ·)) :=
  ⟨by decide, by decide, by decide,
   c6_window_planner.1 473383 473383
     [473377, 473378, 473379, 473380, 473382] 473377 [473381]
     (by decide) (by decide),
   c6_window_planner.2.1 49 51 [48, 49, 50] (by decide)⟩
/-- The relative difference the loop computes at position `i ≥ 1`:
`(results[i] - results[i-1]) * 100.0 / results[i-1]`. -/
def diffQ (rs : List Int) (i : Nat) : ℚ :=
  ((rs.getD i 0 : ℚ) - (rs.getD (i - 1) 0 : ℚ)) * 100 / (rs.getD (i - 1) 0 : ℚ)

/-- Position `i` takes the `difference <= -3` branch of the scan. -/
def isDropAt (rs : List Int) (i : Nat) : Prop :=
  1 ≤ i ∧ i < rs.length ∧ diffQ rs i ≤ -3

instance (rs : List Int) (i : Nat) : Decidable (isDropAt rs i) :=
  inferInstanceAs (Decidable (_ ∧ _ ∧ _))

/-- The most recent `dip_start` strictly before position `j`. -/
def lastDropBefore (rs : List Int) (j : Nat) : Option Nat :=
  ((List.range j).filter fun i => decide (isDropAt rs i)).getLast?

/-- Position `j` takes the `break` of the scan: not itself a ≥3% drop,
and the count has recovered to strictly within 2% below the bucket
preceding the most recent drop. -/
def isEndpointAt (rs : List Int) (j : Nat) : Prop :=
  j < rs.length ∧ ¬(diffQ rs j ≤ -3) ∧
  match lastDropBefore rs j with
  | none => False
  | some i0 =>
    ((rs.getD j 0 : ℚ) - (rs.getD (i0 - 1) 0 : ℚ)) * 100 /
      (rs.getD (i0 - 1) 0 : ℚ) > -2

/-- The `(dip_start, pre_dip_amount, dip_difference)` state the scan holds
when it reaches position `i`. -/
def stateAt (rs : List Int) (i : Nat) : Option (Nat × Int × ℚ) :=
  match lastDropBefore rs i with
  | none => none
  | some d => some (d, rs.getD (d - 1) 0, diffQ rs d)

/-- Modelled from the spec wording of the claim, for comparison with the
code: a dip begins at the *first* bucket strictly more than 3% below its
predecessor; it ends at the first later bucket within 2% below the
pre-dip bucket (the dip starter's predecessor); an unfinished dip counts
only if the initiating drop was at least 10%. -/
def claimDip (rs : List Int) : Bool :=
  match (List.range rs.length).find? (fun i =>
      decide (1 ≤ i) && decide (diffQ rs i < -3)) with
  | none => false
  | some i0 =>
    ((List.range rs.length).find? (fun j =>
      decide (i0 < j) &&
      decide (((rs.getD j 0 : ℚ) - (rs.getD (i0 - 1) 0 : ℚ)) * 100 /
        (rs.getD (i0 - 1) 0 : ℚ) ≥ -2))).isSome ||
    decide (diffQ rs i0 ≤ -10)

/-- **C4** (counterexample).  On `[1000, 970, 1000]` the code reports the
window *incomplete* (970 is exactly 3% below 1000; the loop's
`difference <= -3` counts it as a dip start, and 1000 recovers), while
the claim's dip anatomy — a dip *begins* only at a bucket strictly more
than 3% below its predecessor — finds no dip and predicts *complete*,
so the claimed iff fails on this input. -/
theorem c4_counterexample :
    hourlyLogsSeemComplete [1000, 970, 1000] = false ∧
    claimDip [1000, 970, 1000] = false ∧
    ¬(hourlyLogsSeemComplete [1000, 970, 1000] = false ↔
      claimDip [1000, 970, 1000] = true) := by
  have h1 : hourlyLogsSeemComplete [1000, 970, 1000] = false := by
    norm_num [hourlyLogsSeemComplete, dipScan]
  have h2 : claimDip [1000, 970, 1000] = false := by
    norm_num [claimDip, diffQ, List.range, List.range.loop, List.find?]
  exact ⟨h1, h2, by simp [h1, h2]⟩

end LogExport
namespace LogExport

theorem lastDropBefore_succ (rs : List Int) (i : Nat) :
    lastDropBefore rs (i + 1) =
      if isDropAt rs i then some i else lastDropBefore rs i := by
  unfold lastDropBefore
  rw [List.range_succ, List.filter_append]
  by_cases h : isDropAt rs i
  · simp [h, List.getLast?_append]
  · simp [h]

theorem stateAt_succ_drop (rs : List Int) (i : Nat) (h : isDropAt rs i) :
    stateAt rs (i + 1) = some (i, rs.getD (i - 1) 0, diffQ rs i) := by
  unfold stateAt
  rw [lastDropBefore_succ, if_pos h]

theorem stateAt_succ_nodrop (rs : List Int) (i : Nat) (h : ¬isDropAt rs i) :
    stateAt rs (i + 1) = stateAt rs i := by
  unfold stateAt
  rw [lastDropBefore_succ, if_neg h]

theorem dipScan_correct (rs : List Int) :
    ∀ (n i : Nat), i + n = rs.length → 1 ≤ i →
    (∃ j0, i ≤ j0 ∧ isEndpointAt rs j0 ∧
      dipScan (rs.drop i) (rs.getD (i - 1) 0) i (stateAt rs i) =
        (stateAt rs j0, some j0)) ∨
    ((∀ j, i ≤ j → ¬isEndpointAt rs j) ∧
      dipScan (rs.drop i) (rs.getD (i - 1) 0) i (stateAt rs i) =
        (stateAt rs rs.length, none)) := by
  intro n
  induction n with
  | zero =>
    intro i hlen _
    right
    constructor
    · intro j hij hep
      have := hep.1
      omega
    · rw [List.drop_of_length_le (by omega)]
      simp only [dipScan]
      rw [show rs.length = i from by omega]
  | succ n ih =>
    intro i hlen h1
    have hilt : i < rs.length := by omega
    rw [List.drop_eq_getElem_cons hilt,
      show (rs[i] : Int) = rs.getD i 0 from
        (List.getD_eq_getElem rs 0 hilt).symm]
    simp only [dipScan]
    have hih := ih (i + 1) (by omega) (by omega)
    rw [show i + 1 - 1 = i from by omega] at hih
    by_cases hdrop : diffQ rs i ≤ -3
    · -- the `difference <= -3` branch: the dip (re)starts at i
      have hd : isDropAt rs i := ⟨h1, hilt, hdrop⟩
      have hdrop' := hdrop
      unfold diffQ at hdrop'
      rw [if_pos hdrop']
      rw [stateAt_succ_drop rs i hd] at hih
      rcases hih with ⟨j0, hj0, hep, heq⟩ | ⟨hnone, heq⟩
      · exact Or.inl ⟨j0, by omega, hep, heq⟩
      · refine Or.inr ⟨fun j hij hep => ?_, heq⟩
        rcases Nat.eq_or_lt_of_le hij with rfl | hlt
        · exact absurd hdrop hep.2.1
        · exact hnone j hlt hep
    · have hdrop' := hdrop
      unfold diffQ at hdrop'
      rw [if_neg hdrop']
      rw [stateAt_succ_nodrop rs i (fun hd => hdrop hd.2.2)] at hih
      rcases hst : stateAt rs i with _ | ⟨ds, pre, dd⟩
      · -- no dip in progress: no endpoint possible at i
        have hnoep : ¬isEndpointAt rs i := by
          intro hep
          have h22 := hep.2.2
          unfold stateAt at hst
          rcases h' : lastDropBefore rs i with _ | d
          · rw [h'] at h22; exact h22
          · rw [h'] at hst; simp at hst
        rw [hst] at hih
        simp only [hst]
        rcases hih with ⟨j0, hj0, hep, heq⟩ | ⟨hnone, heq⟩
        · exact Or.inl ⟨j0, by omega, hep, heq⟩
        · refine Or.inr ⟨fun j hij hep => ?_, heq⟩
          rcases Nat.eq_or_lt_of_le hij with rfl | hlt
          · exact hnoep hep
          · exact hnone j hlt hep
      · -- dip in progress: state (ds, pre, dd)
        have hlast : lastDropBefore rs i = some ds ∧
            pre = rs.getD (ds - 1) 0 ∧ dd = diffQ rs ds := by
          unfold stateAt at hst
          rcases h' : lastDropBefore rs i with _ | d
          · rw [h'] at hst; simp at hst
          · rw [h'] at hst
            simp only [Option.some.injEq, Prod.mk.injEq] at hst
            obtain ⟨rfl, h2, h3⟩ := hst
            exact ⟨rfl, h2.symm, h3.symm⟩
        rw [hst] at hih
        simp only [hst]
        by_cases hrec :
            ((rs.getD i 0 : ℚ) - (pre : ℚ)) * 100 / (pre : ℚ) > -2
        · -- recovery: the scan breaks at i
          rw [if_pos hrec]
          refine Or.inl ⟨i, le_refl i, ⟨hilt, hdrop, ?_⟩, ?_⟩
          · simp only [hlast.1]
            rw [← hlast.2.1]
            exact hrec
          · rw [hst]
        · -- no recovery: continue with the same state
          rw [if_neg hrec]
          have hnoep : ¬isEndpointAt rs i := by
            intro hep
            have h22 := hep.2.2
            simp only [hlast.1] at h22
            rw [← hlast.2.1] at h22
            exact hrec h22
          rcases hih with ⟨j0, hj0, hep, heq⟩ | ⟨hnone, heq⟩
          · exact Or.inl ⟨j0, by omega, hep, heq⟩
          · refine Or.inr ⟨fun j hij hep => ?_, heq⟩
            rcases Nat.eq_or_lt_of_le hij with rfl | hlt
            · exact hnoep hep
            · exact hnone j hlt hep

theorem not_isEndpointAt_zero (rs : List Int) : ¬isEndpointAt rs 0 := by
  intro hep
  have h22 := hep.2.2
  simp only [lastDropBefore, List.range_zero, List.filter_nil,
    List.getLast?_nil] at h22

theorem stateAt_one (c0 : Int) (rest : List Int) :
    stateAt (c0 :: rest) 1 = none := by
  have hnd : ¬isDropAt (c0 :: rest) 0 := fun h => absurd h.1 (by omega)
  unfold stateAt lastDropBefore
  simp [List.range_succ, hnd]

theorem stateAt_none_iff (rs : List Int) (i : Nat) :
    stateAt rs i = none ↔ lastDropBefore rs i = none := by
  unfold stateAt
  rcases h : lastDropBefore rs i with _ | d <;> simp

theorem stateAt_some (rs : List Int) (i d : Nat) (pre : Int) (dd : ℚ)
    (h : stateAt rs i = some (d, pre, dd)) :
    lastDropBefore rs i = some d ∧ pre = rs.getD (d - 1) 0 ∧
      dd = diffQ rs d := by
  unfold stateAt at h
  rcases h' : lastDropBefore rs i with _ | e
  · rw [h'] at h; simp at h
  · rw [h'] at h
    simp only [Option.some.injEq, Prod.mk.injEq] at h
    obtain ⟨rfl, h2, h3⟩ := h
    exact ⟨rfl, h2.symm, h3.symm⟩

/-- **C4** (amended).  The validator reports the window incomplete iff
the scan of consecutive buckets finds a dip, where a dip (re)starts at
*every* bucket at least 3% below its predecessor (the pre-dip baseline
being the predecessor of the most recent such drop), ends at the first
later non-drop bucket strictly within 2% below that baseline, and a dip
that begins but does not visibly end counts only if its most recent
initiating drop was at least 10%; consequently
`[100,100,100,40,100,100]` is reported incomplete and `[100,98,97,96,95]`
complete. -/
theorem c4_code_dip_characterization :
    (∀ rs : List Int, hourlyLogsSeemComplete rs = false ↔
      (∃ j, isEndpointAt rs j) ∨
      ((¬∃ j, isEndpointAt rs j) ∧
        ∃ iL, lastDropBefore rs rs.length = some iL ∧
          diffQ rs iL ≤ -10)) ∧
    hourlyLogsSeemComplete [100, 100, 100, 40, 100, 100] = false ∧
    hourlyLogsSeemComplete [100, 98, 97, 96, 95] = true := by
  refine ⟨?_, by norm_num [hourlyLogsSeemComplete, dipScan],
    by norm_num [hourlyLogsSeemComplete, dipScan]⟩
  intro rs
  match rs with
  | [] =>
    simp only [hourlyLogsSeemComplete]
    constructor
    · intro h; simp at h
    · rintro (⟨j, hep⟩ | ⟨_, iL, hL, _⟩)
      · exact absurd hep.1 (by simp)
      · simp [lastDropBefore] at hL
  | c0 :: rest =>
    have hco := dipScan_correct (c0 :: rest) rest.length 1
      (by simp [Nat.add_comm]) (le_refl 1)
    rw [stateAt_one] at hco
    have hdrop1 : (c0 :: rest).drop 1 = rest := rfl
    have hget0 : (c0 :: rest).getD 0 0 = c0 := rfl
    rw [hdrop1, hget0] at hco
    simp only [hourlyLogsSeemComplete]
    rcases hco with ⟨j0, _, hep, heq⟩ | ⟨hnone, heq⟩
    · rw [heq]
      have hsome : ∃ d pre dd,
          stateAt (c0 :: rest) j0 = some (d, pre, dd) := by
        rcases hs : stateAt (c0 :: rest) j0 with _ | ⟨d, pre, dd⟩
        · have h22 := hep.2.2
          rw [(stateAt_none_iff _ _).mp hs] at h22
          exact absurd h22 (by simp)
        · exact ⟨d, pre, dd, rfl⟩
      obtain ⟨d, pre, dd, hs⟩ := hsome
      rw [hs]
      constructor
      · intro _
        exact Or.inl ⟨j0, hep⟩
      · intro _
        simp
    · rw [heq]
      have hall : ¬∃ j, isEndpointAt (c0 :: rest) j := by
        rintro ⟨j, hep⟩
        match j with
        | 0 => exact not_isEndpointAt_zero _ hep
        | j + 1 => exact hnone (j + 1) (by omega) hep
      rcases hs : stateAt (c0 :: rest) (c0 :: rest).length
          with _ | ⟨d, pre, dd⟩
      · constructor
        · intro h; simp at h
        · rintro (h | ⟨_, iL, hL, _⟩)
          · exact absurd h hall
          · rw [(stateAt_none_iff _ _).mp hs] at hL
            simp at hL
      · have hinv := stateAt_some _ _ _ _ _ hs
        simp only [Option.isSome_none, Bool.false_or]
        constructor
        · intro h
          simp at h
          exact Or.inr ⟨hall, d, hinv.1, by rw [← hinv.2.2]; exact h⟩
        · rintro (h | ⟨_, iL, hL, hle⟩)
          · exact absurd h hall
          · rw [hinv.1] at hL
            simp only [Option.some.injEq] at hL
            subst hL
            simp
            rw [hinv.2.2]
            exact hle

/-- The fold `groupKeys` uses, starting from any accumulator. -/
theorem groupKeys_fold_nodup (l : List (Option String)) :
    ∀ acc : List (Option String), acc.Nodup →
    (l.foldl (fun acc k => if k ∈ acc then acc else acc ++ [k])
      acc).Nodup := by
  induction l with
  | nil => intro acc h; exact h
  | cons k rest ih =>
    intro acc h
    simp only [List.foldl_cons]
    by_cases hk : k ∈ acc
    · rw [if_pos hk]; exact ih acc h
    · rw [if_neg hk]
      exact ih _ ((List.nodup_append ..).mpr
        ⟨h, List.nodup_singleton k, by simpa using hk⟩)

theorem groupKeys_fold_mem (l : List (Option String)) :
    ∀ (acc : List (Option String)) (x : Option String),
    x ∈ l.foldl (fun acc k => if k ∈ acc then acc else acc ++ [k]) acc ↔
      x ∈ acc ∨ x ∈ l := by
  induction l with
  | nil => intro acc x; simp
  | cons k rest ih =>
    intro acc x
    simp only [List.foldl_cons]
    by_cases hk : k ∈ acc
    · rw [if_pos hk, ih]
      constructor
      · rintro (h | h)
        · exact Or.inl h
        · exact Or.inr (by simp [h])
      · rintro (h | h)
        · exact Or.inl h
        · rcases List.mem_cons.mp h with rfl | h'
          · exact Or.inl hk
          · exact Or.inr h'
    · rw [if_neg hk, ih]
      simp only [List.mem_append, List.mem_singleton, List.mem_cons]
      tauto

theorem groupKeys_nodup (t : List Row) : (groupKeys t).Nodup :=
  groupKeys_fold_nodup _ _ List.nodup_nil

theorem mem_groupKeys (t : List Row) (k : Option String) :
    k ∈ groupKeys t ↔ k ∈ (linkLines t).map Prod.snd := by
  unfold groupKeys
  rw [groupKeys_fold_mem]
  simp

theorem joined_map_rid (t : List Row) :
    (joinedApplogLines t).map Frag.request_id = groupKeys t := by
  unfold joinedApplogLines
  rw [List.map_map]
  exact List.map_id'' (fun _ => rfl) _

end LogExport
namespace LogExport

theorem countP_beq_le_one {α : Type} [BEq α] [LawfulBEq α] :
    ∀ l : List α, l.Nodup → ∀ k : α, l.countP (fun x => x == k) ≤ 1 := by
  intro l
  induction l with
  | nil => simp
  | cons a rest ih =>
    intro h k
    rw [List.countP_cons]
    rcases List.nodup_cons.mp h with ⟨ha, hrest⟩
    by_cases hak : (a == k) = true
    · have hz : rest.countP (fun x => x == k) = 0 := by
        rw [List.countP_eq_zero]
        intro x hx hxk
        rw [eq_of_beq hxk, ← eq_of_beq hak] at hx
        exact ha hx
      simp [hz, hak]
    · simp only [hak, if_false, Nat.add_zero]
      exact ih hrest k

theorem frag_countP_le_one (t : List Row) (k : Option String) :
    (joinedApplogLines t).countP (fun f => f.request_id == k) ≤ 1 := by
  have h1 : ((joinedApplogLines t).map Frag.request_id).countP
      (fun x => x == k) =
      (joinedApplogLines t).countP (fun f => f.request_id == k) :=
    List.countP_map ..
  rw [← h1, joined_map_rid]
  exact countP_beq_le_one _ (groupKeys_nodup t) k

theorem filter_frag_length_le_one (t : List Row) (rid : Option String) :
    ((joinedApplogLines t).filter
      (fun f => eqNonNull rid f.request_id)).length ≤ 1 := by
  rcases rid with _ | v
  · simp [eqNonNull]
  · have hcongr : ∀ f ∈ joinedApplogLines t,
        eqNonNull (some v) f.request_id = (f.request_id == some v) := by
      intro f _
      rcases f.request_id with _ | b
      · simp [eqNonNull]
      · show (v == b) = (b == v)
        by_cases hvb : v = b
        · subst hvb; rfl
        · rw [beq_eq_false_iff_ne.mpr hvb,
            beq_eq_false_iff_ne.mpr (Ne.symm hvb)]
    rw [List.filter_congr hcongr, ← List.countP_eq_length_filter]
    exact frag_countP_le_one t (some v)

/-- One request row's contribution to the final left join. -/
def requestSeg (t : List Row) (r : Row) : List (Row × Option Frag) :=
  match (joinedApplogLines t).filter
      (fun f => eqNonNull r.request_id f.request_id) with
  | [] => [(r, none)]
  | ms => ms.map fun f => (r, some f)

theorem vmModulesQuery_eq_flatMap (startTime endTime : Int)
    (events : List Row) :
    vmModulesQuery startTime endTime events =
      (requestRows (vmSubtable startTime endTime events)).flatMap
        (requestSeg (vmSubtable startTime endTime events)) := rfl

theorem requestSeg_length (t : List Row) (r : Row) :
    (requestSeg t r).length = 1 := by
  unfold requestSeg
  rcases h : (joinedApplogLines t).filter
      (fun f => eqNonNull r.request_id f.request_id) with _ | ⟨f, rest⟩
  · rw [h]
    rfl
  · have hle := filter_frag_length_le_one t r.request_id
    rw [h] at hle
    simp only [List.length_cons] at hle
    have hrest : rest = [] := List.length_eq_zero.mp (by omega)
    subst hrest
    rw [h]
    rfl

theorem requestSeg_fst (t : List Row) (r : Row) :
    ∀ p ∈ requestSeg t r, p.1 = r := by
  unfold requestSeg
  rcases h : (joinedApplogLines t).filter
      (fun f => eqNonNull r.request_id f.request_id) with _ | ⟨f, rest⟩
  · rw [h]
    intro p hp
    simp at hp
    rw [hp]
  · rw [h]
    intro p hp
    simp only [List.mem_map] at hp
    obtain ⟨f', _, rfl⟩ := hp
    rfl

theorem vmModulesQuery_length (startTime endTime : Int)
    (events : List Row) :
    (vmModulesQuery startTime endTime events).length =
      (requestRows (vmSubtable startTime endTime events)).length := by
  rw [vmModulesQuery_eq_flatMap, List.length_flatMap]
  have hmap : List.map
      (List.length ∘ requestSeg (vmSubtable startTime endTime events))
      (requestRows (vmSubtable startTime endTime events)) =
      List.map (fun _ => 1)
        (requestRows (vmSubtable startTime endTime events)) :=
    List.map_congr_left
      (fun r _ => requestSeg_length (vmSubtable startTime endTime events) r)
  rw [hmap]
  simp [List.map_const]

theorem requestSeg_countP (t : List Row) (r : Row) (k : Option String) :
    (requestSeg t r).countP (fun p => p.1.request_id == k) =
      if (r.request_id == k) = true then 1 else 0 := by
  obtain ⟨p, hp⟩ := List.length_eq_one.mp (requestSeg_length t r)
  have hfst : p.1 = r := requestSeg_fst t r p (by rw [hp]; simp)
  rw [hp]
  simp [List.countP_cons, hfst]

theorem countP_flatMap_seg (t : List Row) (k : Option String) :
    ∀ rl : List Row,
    ((rl.flatMap (requestSeg t)).countP fun p => p.1.request_id == k) =
      rl.countP (fun r => r.request_id == k) := by
  intro rl
  induction rl with
  | nil => rfl
  | cons r rest ih =>
    rw [List.flatMap_cons, List.countP_append, ih, List.countP_cons,
      requestSeg_countP, Nat.add_comm]

theorem left_outer_pad (s e : Int) (ev : List Row) (r : Row)
    (hr : r ∈ requestRows (vmSubtable s e ev))
    (hno : ∀ a ∈ appLogRows (vmSubtable s e ev),
      a.request_id ≠ r.request_id) :
    (r, none) ∈ vmModulesQuery s e ev := by
  rw [vmModulesQuery_eq_flatMap]
  apply List.mem_flatMap.mpr
  refine ⟨r, hr, ?_⟩
  unfold requestSeg
  have hfil : (joinedApplogLines (vmSubtable s e ev)).filter
      (fun f => eqNonNull r.request_id f.request_id) = [] := by
    rw [List.filter_eq_nil_iff]
    intro f hf hpred
    have hkey : f.request_id ∈ groupKeys (vmSubtable s e ev) := by
      rw [← joined_map_rid]
      exact List.mem_map_of_mem Frag.request_id hf
    rw [mem_groupKeys] at hkey
    obtain ⟨l, hl, hl2⟩ := List.mem_map.mp hkey
    unfold linkLines at hl
    obtain ⟨a, ha, rfl⟩ := List.mem_map.mp hl
    have hamem : a ∈ appLogRows (vmSubtable s e ev) :=
      (List.mem_filter.mp ha).1
    have heq : r.request_id = f.request_id := by
      rcases hr' : r.request_id with _ | v
      · rw [hr'] at hpred; simp [eqNonNull] at hpred
      · rcases hf' : f.request_id with _ | w
        · rw [hr', hf'] at hpred; simp [eqNonNull] at hpred
        · rw [hr', hf'] at hpred
          simp only [eqNonNull, beq_iff_eq] at hpred
          rw [hpred]
    exact hno a hamem ((show a.request_id = f.request_id from hl2).trans
      heq.symm)
  rw [hfil]
  simp

/-- A request row with `request_id` `"r"` and no thread id. -/
def rowReqA : Row :=
  { request_id := some "r", thread_id := none, end_time := 0,
    module_id := "vm", app_logs := [], elog_country := none,
    bingo_participation_events := [], bingo_conversion_events := [] }

/-- A second, distinct request row carrying the same `request_id`. -/
def rowReqB : Row := { rowReqA with end_time := 1 }

/-- **C1** (counterexample).  Two *distinct* raw request rows sharing
`request_id = "r"` (both in the window, with `thread_id` unset) produce
two output rows for that one distinct `request_id`: the final
`LEFT OUTER JOIN` keeps one row per request *row*, not per distinct id,
refuting "at most one output row per distinct request_id". -/
theorem c1_counterexample :
    rowReqA ≠ rowReqB ∧
    requestRows (vmSubtable 0 3600 [rowReqA, rowReqB]) =
      [rowReqA, rowReqB] ∧
    (vmModulesQuery 0 3600 [rowReqA, rowReqB]).countP
      (fun p => p.1.request_id == some "r") = 2 := by decide

/-- **C1** (amended).  For the vm-modules query over any raw-event set:
(1) the request-row population is exactly the window's vm rows with
`request_id` set and `thread_id` unset; (2) `joined_applog_lines` holds
at most one aggregated fragment record per distinct `request_id`;
(3) the output has exactly one row per request *row* (each request row
left-joins the at-most-one matching fragment record, or a NULL pad);
(4) hence when the request rows carry pairwise-distinct `request_id`s
the output has at most one row per distinct `request_id`; and (5) a
request row none of whose app-log rows shares its `request_id` still
appears in the output, with the whole fragment side `none` — every
fragment-derived column (`app_logs`, `elog_*`, `bingo_*`) NULL/empty. -/
theorem c1_fragment_join :
    (∀ (s e : Int) (ev : List Row) (r : Row),
      r ∈ requestRows (vmSubtable s e ev) ↔
        (r ∈ ev ∧ s ≤ r.end_time ∧ r.end_time < e ∧ r.module_id = "vm" ∧
         isSet r.request_id = true ∧ isUnset r.thread_id = true)) ∧
    (∀ (t : List Row) (k : Option String),
      (joinedApplogLines t).countP (fun f => f.request_id == k) ≤ 1) ∧
    (∀ (s e : Int) (ev : List Row),
      (vmModulesQuery s e ev).length =
        (requestRows (vmSubtable s e ev)).length) ∧
    (∀ (s e : Int) (ev : List Row),
      ((requestRows (vmSubtable s e ev)).map Row.request_id).Nodup →
      ∀ k, (vmModulesQuery s e ev).countP
        (fun p => p.1.request_id == k) ≤ 1) ∧
    (∀ (s e : Int) (ev : List Row) (r : Row),
      r ∈ requestRows (vmSubtable s e ev) →
      (∀ a ∈ appLogRows (vmSubtable s e ev),
        a.request_id ≠ r.request_id) →
      (r, none) ∈ vmModulesQuery s e ev) := by
  refine ⟨?_, frag_countP_le_one, vmModulesQuery_length, ?_,
    left_outer_pad⟩
  · intro s e ev r
    simp only [requestRows, vmSubtable, List.mem_filter, Bool.and_eq_true,
      decide_eq_true_eq, beq_iff_eq]
    tauto
  · intro s e ev hnodup k
    rw [vmModulesQuery_eq_flatMap, countP_flatMap_seg]
    have h1 : ((requestRows (vmSubtable s e ev)).map Row.request_id).countP
        (fun x => x == k) =
        (requestRows (vmSubtable s e ev)).countP
          (fun r => r.request_id == k) := List.countP_map ..
    rw [← h1]
    exact countP_beq_le_one _ hnodup k

/-- **C1** (witness): a one-request-row event set discharging the
hypotheses of parts (4) and (5) concretely. -/
theorem c1_fragment_join_witness :
    ((requestRows (vmSubtable 0 3600 [rowReqA])).map Row.request_id).Nodup ∧
    rowReqA ∈ requestRows (vmSubtable 0 3600 [rowReqA]) ∧
    (∀ a ∈ appLogRows (vmSubtable 0 3600 [rowReqA]),
      a.request_id ≠ rowReqA.request_id) ∧
    (vmModulesQuery 0 3600 [rowReqA]).countP
      (fun p => p.1.request_id == some "r") ≤ 1 ∧
    (rowReqA, none) ∈ vmModulesQuery 0 3600 [rowReqA] :=
  ⟨by decide, by decide, by decide,
   c1_fragment_join.2.2.2.1 0 3600 [rowReqA] (by decide) (some "r"),
   c1_fragment_join.2.2.2.2 0 3600 [rowReqA] rowReqA (by decide)
     (by decide)⟩
end LogExport
